import Mathlib

/-!
Verification of the error-aware in-place heap sort of
`jerry-core/ecma/builtin-objects/ecma-builtin-helpers-sort.c`
(`ecma_builtin_helper_array_to_heap` and
`ecma_builtin_helper_array_heap_sort_helper`).

The array of `ecma_value_t` slots is embedded as a `List V` for an
arbitrary value type `V`; reads `array_p[i]` become `List.getD` and
writes become `List.set`.  The comparator callback `sort_cb` is embedded
as `Cmp V := Nat → V → V → Option Int`: the `Nat` argument is the number
of comparator invocations already made (so a comparator may be
"engineered to fail on its k-th call"), `none` models
`ECMA_VALUE_ERROR`, and `some x` models a numeric result whose sign is
the only datum the C code consults (`< ECMA_NUMBER_ZERO`,
`<= ECMA_NUMBER_ZERO`).

Every run additionally produces a trace of observable events:
comparator invocations (with their operands and outcome), releases of
numeric comparison outcomes (`ecma_free_value`), the in-loop shift
writes `array_p[parent] = array_p[child]`, and the final write-back
`array_p[parent] = swap`.  The boolean field `ok` records that every
executed `JERRY_ASSERT` about index bounds evaluated to true
(lines 63, 85 and 99 of the C file; the `ecma_is_value_number`
assertions are vacuous here because successful outcomes are numeric by
construction).
-/

namespace HeapSort

/-- Observable events of one run: comparator calls (with invocation
counter, the two operand values and the outcome, `none` = error),
releases of numeric outcomes (`ecma_free_value` on a compare result),
the shift write `array_p[parent] = array_p[child]` (line 86), and the
final write-back `array_p[parent] = swap` (line 100). -/
inductive Ev (V : Type) where
  | call (k : Nat) (x y : V) (res : Option Int)
  | free (k : Nat)
  | shift (parent child : Nat)
  | writeBack (parent : Nat)
  deriving DecidableEq, Repr

/-- A comparator callback: given the number of invocations already made
and the two operands, either fail (`none`, modelling
`ECMA_VALUE_ERROR`) or return a numeric sign value. -/
abbrev Cmp (V : Type) := Nat → V → V → Option Int

/-- Result of the sift-down loop (lines 39-92): final array, the value
of `child` when the loop stopped, the invocation counter, whether
`ret_value` is `ECMA_VALUE_ERROR`, whether all executed asserts held,
and the event trace. -/
structure LoopRes (V : Type) where
  arr : List V
  child : Nat
  k : Nat
  err : Bool
  ok : Bool
  tr : List (Ev V)
  deriving DecidableEq, Repr

/-- Result of `array_to_heap` and of the driver: final array,
invocation counter, error flag, assert flag, event trace. -/
structure Res (V : Type) where
  arr : List V
  k : Nat
  err : Bool
  ok : Bool
  tr : List (Ev V)
  deriving DecidableEq, Repr

/-- Lines 41-61 of the C file: when a right sibling exists, compare the
two children; on failure return `none`, otherwise return the selected
child (advanced to the right sibling exactly when the comparator
reported a strictly negative sign), the new invocation counter and the
trace (the numeric outcome is released right after its sign is read). -/
def childSel [Inhabited V] (cmp : Cmp V) (k : Nat) (arr : List V) (child : Nat) :
    Option (Nat × Nat × List (Ev V)) :=
  match cmp k (arr.getD child default) (arr.getD (child + 1) default) with
  | none => none
  | some x =>
      some (if x < 0 then child + 1 else child, k + 1,
            [Ev.call k (arr.getD child default) (arr.getD (child + 1) default) (some x),
             Ev.free k])

/-- Full characterization of a successful `childSel`. -/
theorem childSel_spec [Inhabited V] {cmp : Cmp V} {k : Nat} {arr : List V} {child : Nat}
    {c1 : Nat} {k1 : Nat} {tr1 : List (Ev V)}
    (h : childSel cmp k arr child = some (c1, k1, tr1)) :
    ∃ x, cmp k (arr.getD child default) (arr.getD (child + 1) default) = some x ∧
      c1 = (if x < 0 then child + 1 else child) ∧ k1 = k + 1 ∧
      tr1 = [Ev.call k (arr.getD child default) (arr.getD (child + 1) default) (some x),
             Ev.free k] := by
  unfold childSel at h
  cases hm : cmp k (arr.getD child default) (arr.getD (child + 1) default) with
  | none => rw [hm] at h; exact absurd h (by simp)
  | some x =>
      rw [hm] at h
      simp only [Option.some.injEq, Prod.mk.injEq] at h
      exact ⟨x, rfl, h.1.symm, h.2.1.symm, h.2.2.symm⟩

/-- The guarded child-selection step: the whole `if (child < right)`
block of lines 41-61 (skipped when no right sibling exists). -/
def sel [Inhabited V] (cmp : Cmp V) (k : Nat) (arr : List V) (child right : Nat) :
    Option (Nat × Nat × List (Ev V)) :=
  if child < right then childSel cmp k arr child
  else some (child, k, ([] : List (Ev V)))

/-- Everything the rest of the loop needs to know about a successful
child selection. -/
theorem sel_spec [Inhabited V] {cmp : Cmp V} {k : Nat} {arr : List V} {child right : Nat}
    {c1 : Nat} {k1 : Nat} {tr1 : List (Ev V)} (hg : child ≤ right)
    (h : sel cmp k arr child right = some (c1, k1, tr1)) :
    child ≤ c1 ∧ c1 ≤ child + 1 ∧ c1 ≤ right ∧ k ≤ k1 ∧
    ((¬ child < right ∧ c1 = child ∧ k1 = k ∧ tr1 = []) ∨
     (child < right ∧
      ∃ x, cmp k (arr.getD child default) (arr.getD (child + 1) default) = some x ∧
        c1 = (if x < 0 then child + 1 else child) ∧ k1 = k + 1 ∧
        tr1 = [Ev.call k (arr.getD child default) (arr.getD (child + 1) default) (some x),
               Ev.free k])) := by
  unfold sel at h
  split at h
  · rcases childSel_spec h with ⟨x, hm, hc, hk, ht⟩
    refine ⟨?_, ?_, ?_, ?_, Or.inr ⟨by assumption, x, hm, hc, hk, ht⟩⟩
    · rw [hc]; split <;> omega
    · rw [hc]; split <;> omega
    · rw [hc]; split <;> omega
    · omega
  · simp only [Option.some.injEq, Prod.mk.injEq] at h
    exact ⟨by omega, by omega, by omega, by omega,
      Or.inl ⟨by assumption, h.1.symm, h.2.1.symm, h.2.2.symm⟩⟩

theorem sel_le [Inhabited V] {cmp : Cmp V} {k : Nat} {arr : List V} {child right : Nat}
    {c1 : Nat} {k1 : Nat} {tr1 : List (Ev V)}
    (h : sel cmp k arr child right = some (c1, k1, tr1)) :
    child ≤ c1 ∧ c1 ≤ child + 1 := by
  unfold sel at h
  split at h
  · rcases childSel_spec h with ⟨x, _, hc, _, _⟩
    rw [hc]; constructor <;> split <;> omega
  · simp only [Option.some.injEq, Prod.mk.injEq] at h
    omega

/-- The `while (child <= right)` loop, lines 39-92 of the C file.
`swap` is the held-aside value of the slot being sifted down; `child`
and `k` are the current child index and invocation counter. -/
def siftLoop [Inhabited V] (cmp : Cmp V) (right : Nat) (swap : V)
    (arr : List V) (child k : Nat) : LoopRes V :=
  if hg : child ≤ right then
    match hsel : sel cmp k arr child right with
    | none =>
        -- line 46-50: comparator failed on the two children; break with error
        ⟨arr, child, k + 1, true, true,
         [Ev.call k (arr.getD child default) (arr.getD (child + 1) default) none]⟩
    | some (c1, k1, tr1) =>
        -- line 63: JERRY_ASSERT (child <= right)
        let a1 := decide (c1 ≤ right)
        -- line 66: compare current child with swap
        match cmp k1 (arr.getD c1 default) swap with
        | none =>
            ⟨arr, c1, k1 + 1, true, a1,
             tr1 ++ [Ev.call k1 (arr.getD c1 default) swap none]⟩
        | some y =>
            if y ≤ 0 then
              -- line 76-81: child not greater than swap; release and break
              ⟨arr, c1, k1 + 1, false, a1,
               tr1 ++ [Ev.call k1 (arr.getD c1 default) swap (some y), Ev.free k1]⟩
            else
              -- lines 83-91: shift child up, descend, release
              let parent := (c1 - 1) / 2
              let r := siftLoop cmp right swap
                         (arr.set parent (arr.getD c1 default)) (c1 * 2 + 1) (k1 + 1)
              ⟨r.arr, r.child, r.k, r.err,
               (a1 && decide (parent ≤ right)) && r.ok,
               tr1 ++ [Ev.call k1 (arr.getD c1 default) swap (some y),
                       Ev.shift parent c1, Ev.free k1] ++ r.tr⟩
  else ⟨arr, child, k, false, true, []⟩
termination_by right + 1 - child
decreasing_by
  have := sel_le hsel
  omega

/-- `ecma_builtin_helper_array_to_heap`, lines 26-103 of the C file:
hold `array_p[index]` aside as `swap`, run the sift-down loop from the
left child of `index`, and finally write `swap` back into the parent of
the final child position (line 100; the assert of line 99 is recorded
in `ok`). -/
def array_to_heap [Inhabited V] (cmp : Cmp V) (arr : List V)
    (index right k : Nat) : Res V :=
  let swap := arr.getD index default
  let r := siftLoop cmp right swap arr (index * 2 + 1) k
  let parent := (r.child - 1) / 2
  ⟨r.arr.set parent swap, r.k, r.err, r.ok && decide (parent ≤ right),
   r.tr ++ [Ev.writeBack parent]⟩

/-- Phase 1 of `ecma_builtin_helper_array_heap_sort_helper`, lines
117-126: `for (i = right / 2 + 1; i > 0; i--)` call
`array_to_heap (arr, i - 1, right)`, aborting on the first error.
The last argument is the loop counter `i`. -/
def buildLoop [Inhabited V] (cmp : Cmp V) (right : Nat) :
    List V → Nat → Nat → Res V
  | arr, k, 0 => ⟨arr, k, false, true, []⟩
  | arr, k, i + 1 =>
      let r := array_to_heap cmp arr i right k
      if r.err then ⟨r.arr, r.k, true, r.ok, r.tr⟩
      else
        let r2 := buildLoop cmp right r.arr r.k i
        ⟨r2.arr, r2.k, r2.err, r.ok && r2.ok, r.tr ++ r2.tr⟩

/-- Phase 2 of `ecma_builtin_helper_array_heap_sort_helper`, lines
129-146: `for (i = right; i > 0; i--)` swap `array_p[0]` with
`array_p[i]` and re-heapify `[0, i-1]`, aborting on the first error.
The last argument is the loop counter `i`. -/
def sortLoop [Inhabited V] (cmp : Cmp V) :
    List V → Nat → Nat → Res V
  | arr, k, 0 => ⟨arr, k, false, true, []⟩
  | arr, k, i + 1 =>
      let arr1 := (arr.set 0 (arr.getD (i + 1) default)).set (i + 1) (arr.getD 0 default)
      let r := array_to_heap cmp arr1 0 i k
      if r.err then ⟨r.arr, r.k, true, r.ok, r.tr⟩
      else
        let r2 := sortLoop cmp r.arr r.k i
        ⟨r2.arr, r2.k, r2.err, r.ok && r2.ok, r.tr ++ r2.tr⟩

/-- `ecma_builtin_helper_array_heap_sort_helper`, lines 111-149 of the
C file: build the heap, then extract maxima; propagate the first
comparator failure immediately. -/
def heap_sort_helper [Inhabited V] (cmp : Cmp V) (arr : List V) (right : Nat) : Res V :=
  let r1 := buildLoop cmp right arr 0 (right / 2 + 1)
  if r1.err then r1
  else
    let r2 := sortLoop cmp r1.arr r1.k right
    ⟨r2.arr, r2.k, r2.err, r1.ok && r2.ok, r1.tr ++ r2.tr⟩

/-- The modulus of the C type `uint32_t` (2^32): `child` is a
`uint32_t`, so `child * 2 + 1` (lines 34 and 89) wraps modulo this
value. -/
def U32 : Nat := 4294967296

/-- Faithful `uint32_t` variant of the sift-down loop: identical to
`siftLoop` except that the child updates `index * 2 + 1` and
`child * 2 + 1` are reduced modulo `2 ^ 32`, exactly as the C
`uint32_t` arithmetic does.  Because the wrapped loop can genuinely
diverge (the guard `child <= right` may hold forever once `child`
wraps), the function takes a `fuel` bound on the number of loop
iterations and returns `none` when the bound is exhausted; `some r`
means the C loop terminates with result `r` within `fuel`
iterations. -/
def siftLoop32 [Inhabited V] (cmp : Cmp V) (right : Nat) (swap : V) :
    Nat → List V → Nat → Nat → Option (LoopRes V)
  | 0, arr, child, k =>
      if child ≤ right then none else some ⟨arr, child, k, false, true, []⟩
  | fuel + 1, arr, child, k =>
      if child ≤ right then
        match sel cmp k arr child right with
        | none =>
            some ⟨arr, child, k + 1, true, true,
              [Ev.call k (arr.getD child default) (arr.getD (child + 1) default) none]⟩
        | some (c1, k1, tr1) =>
            match cmp k1 (arr.getD c1 default) swap with
            | none =>
                some ⟨arr, c1, k1 + 1, true, decide (c1 ≤ right),
                  tr1 ++ [Ev.call k1 (arr.getD c1 default) swap none]⟩
            | some y =>
                if y ≤ 0 then
                  some ⟨arr, c1, k1 + 1, false, decide (c1 ≤ right),
                    tr1 ++ [Ev.call k1 (arr.getD c1 default) swap (some y), Ev.free k1]⟩
                else
                  match siftLoop32 cmp right swap fuel
                      (arr.set ((c1 - 1) / 2) (arr.getD c1 default))
                      ((c1 * 2 + 1) % U32) (k1 + 1) with
                  | none => none
                  | some r =>
                      some ⟨r.arr, r.child, r.k, r.err,
                        (decide (c1 ≤ right) && decide ((c1 - 1) / 2 ≤ right)) && r.ok,
                        tr1 ++ [Ev.call k1 (arr.getD c1 default) swap (some y),
                                Ev.shift ((c1 - 1) / 2) c1, Ev.free k1] ++ r.tr⟩
      else some ⟨arr, child, k, false, true, []⟩

/-- Faithful `uint32_t` variant of `ecma_builtin_helper_array_to_heap`:
the entry `child = index * 2 + 1` (line 34) also wraps modulo 2^32. -/
def array_to_heap32 [Inhabited V] (cmp : Cmp V) (fuel : Nat) (arr : List V)
    (index right k : Nat) : Option (Res V) :=
  let swap := arr.getD index default
  match siftLoop32 cmp right swap fuel arr ((index * 2 + 1) % U32) k with
  | none => none
  | some r =>
      let parent := (r.child - 1) / 2
      some ⟨r.arr.set parent swap, r.k, r.err, r.ok && decide (parent ≤ right),
        r.tr ++ [Ev.writeBack parent]⟩

/-- Faithful `uint32_t` variant of phase 1; the `for` loop itself is
bounded, so only the inner sift loop consumes fuel. -/
def buildLoop32 [Inhabited V] (cmp : Cmp V) (right fuel : Nat) :
    List V → Nat → Nat → Option (Res V)
  | arr, k, 0 => some ⟨arr, k, false, true, []⟩
  | arr, k, i + 1 =>
      match array_to_heap32 cmp fuel arr i right k with
      | none => none
      | some r =>
          if r.err then some ⟨r.arr, r.k, true, r.ok, r.tr⟩
          else
            match buildLoop32 cmp right fuel r.arr r.k i with
            | none => none
            | some r2 => some ⟨r2.arr, r2.k, r2.err, r.ok && r2.ok, r.tr ++ r2.tr⟩

/-- Faithful `uint32_t` variant of phase 2. -/
def sortLoop32 [Inhabited V] (cmp : Cmp V) (fuel : Nat) :
    List V → Nat → Nat → Option (Res V)
  | arr, k, 0 => some ⟨arr, k, false, true, []⟩
  | arr, k, i + 1 =>
      let arr1 := (arr.set 0 (arr.getD (i + 1) default)).set (i + 1) (arr.getD 0 default)
      match array_to_heap32 cmp fuel arr1 0 i k with
      | none => none
      | some r =>
          if r.err then some ⟨r.arr, r.k, true, r.ok, r.tr⟩
          else
            match sortLoop32 cmp fuel r.arr r.k i with
            | none => none
            | some r2 => some ⟨r2.arr, r2.k, r2.err, r.ok && r2.ok, r.tr ++ r2.tr⟩

/-- Faithful `uint32_t` variant of
`ecma_builtin_helper_array_heap_sort_helper`.  `none` means some inner
while loop exceeded `fuel` iterations (with wrapped arithmetic the loop
can run forever, so no finite fuel suffices on such inputs). -/
def heap_sort_helper32 [Inhabited V] (cmp : Cmp V) (fuel : Nat) (arr : List V)
    (right : Nat) : Option (Res V) :=
  match buildLoop32 cmp right fuel arr 0 (right / 2 + 1) with
  | none => none
  | some r1 =>
      if r1.err then some r1
      else
        match sortLoop32 cmp fuel r1.arr r1.k right with
        | none => none
        | some r2 => some ⟨r2.arr, r2.k, r2.err, r1.ok && r2.ok, r1.tr ++ r2.tr⟩

/-- Counterexample input for the unbounded permutation property: an
array of the maximal `uint32_t`-addressable length `2 ^ 32 - 1`
(so `right = 2 ^ 32 - 2`), holding `0` everywhere except a `7` at
index `2 ^ 31 - 3`. -/
def cexArr : List Nat := (List.replicate 4294967295 0).set 2147483645 7

/-- Call-indexed comparator driving the wrapped sift of index
`2 ^ 31 - 2` on `cexArr` through an advance, a shift, a wrapped
revisit, a second shift and a stop (calls 0-5), then failing on
invocation 6 so the driver returns at once. -/
def cexCmp : Cmp Nat := fun k _ _ =>
  if k = 0 then some (-1)
  else if k = 5 then some (-1)
  else if k = 6 then none
  else some 1

/-- Counterexample input for the unbounded sortedness and phase-1
properties: same length, holding `0` everywhere except `1` at index
`2 ^ 32 - 3` and `2` at index `2 ^ 32 - 2`. -/
def divArr : List Nat :=
  ((List.replicate 4294967295 0).set 4294967293 1).set 4294967294 2

/-- A pure sign function defining a total order on `Nat`. -/
def fDiv : Nat → Nat → Int := fun a b => (a : Int) - (b : Int)

/-- The array state at which the wrapped sift of index `2 ^ 31 - 2` on
`divArr` becomes stationary: each further iteration compares the same
two slots, shifts the same value into the same parent slot and wraps
`child` back to `2 ^ 32 - 3`, forever. -/
def arrFix : List Nat := divArr.set 2147483646 2

/-- A comparator built from a pure sign function: never fails and
ignores the invocation counter. -/
def cmpOf (f : V → V → Int) : Cmp V := fun _ a b => some (f a b)

/-- The comparator invocations recorded in a trace, in order:
invocation counter together with the outcome. -/
def callsOf : List (Ev V) → List (Nat × Option Int) :=
  List.filterMap fun e => match e with
    | Ev.call k _ _ res => some (k, res)
    | _ => none

set_option maxRecDepth 8000 in
example :
    (heap_sort_helper (cmpOf fun a b => a - b) ([3, 1, 4, 1, 5] : List Int) 4).arr
      = [1, 1, 3, 4, 5] := by
  simp [heap_sort_helper, buildLoop, sortLoop, array_to_heap, siftLoop, sel, childSel, cmpOf]

/-! ### Branch equations for `siftLoop` -/

theorem siftLoop_base [Inhabited V] (cmp : Cmp V) (right : Nat) (swap : V)
    (arr : List V) (child k : Nat) (hg : ¬ child ≤ right) :
    siftLoop cmp right swap arr child k = ⟨arr, child, k, false, true, []⟩ := by
  rw [siftLoop.eq_def, dif_neg hg]

theorem siftLoop_selErr [Inhabited V] (cmp : Cmp V) (right : Nat) (swap : V)
    (arr : List V) (child k : Nat) (hg : child ≤ right)
    (hsel : sel cmp k arr child right = none) :
    siftLoop cmp right swap arr child k
      = ⟨arr, child, k + 1, true, true,
         [Ev.call k (arr.getD child default) (arr.getD (child + 1) default) none]⟩ := by
  rw [siftLoop.eq_def, dif_pos hg]
  split
  · rfl
  · rename_i heq
    rw [hsel] at heq
    exact absurd heq (by simp)

theorem siftLoop_cmpErr [Inhabited V] (cmp : Cmp V) (right : Nat) (swap : V)
    (arr : List V) (child k : Nat) (hg : child ≤ right)
    {c1 k1 : Nat} {tr1 : List (Ev V)}
    (hsel : sel cmp k arr child right = some (c1, k1, tr1))
    (hm : cmp k1 (arr.getD c1 default) swap = none) :
    siftLoop cmp right swap arr child k
      = ⟨arr, c1, k1 + 1, true, decide (c1 ≤ right),
         tr1 ++ [Ev.call k1 (arr.getD c1 default) swap none]⟩ := by
  rw [siftLoop.eq_def, dif_pos hg]
  split
  · rename_i heq
    rw [hsel] at heq
    exact absurd heq (by simp)
  · rename_i c2 k2 tr2 heq
    rw [hsel] at heq
    simp only [Option.some.injEq, Prod.mk.injEq] at heq
    obtain ⟨hc, hk, ht⟩ := heq
    subst hc; subst hk; subst ht
    simp only [hm]

theorem siftLoop_stop [Inhabited V] (cmp : Cmp V) (right : Nat) (swap : V)
    (arr : List V) (child k : Nat) (hg : child ≤ right)
    {c1 k1 : Nat} {tr1 : List (Ev V)} {y : Int}
    (hsel : sel cmp k arr child right = some (c1, k1, tr1))
    (hm : cmp k1 (arr.getD c1 default) swap = some y) (hy : y ≤ 0) :
    siftLoop cmp right swap arr child k
      = ⟨arr, c1, k1 + 1, false, decide (c1 ≤ right),
         tr1 ++ [Ev.call k1 (arr.getD c1 default) swap (some y), Ev.free k1]⟩ := by
  rw [siftLoop.eq_def, dif_pos hg]
  split
  · rename_i heq
    rw [hsel] at heq
    exact absurd heq (by simp)
  · rename_i c2 k2 tr2 heq
    rw [hsel] at heq
    simp only [Option.some.injEq, Prod.mk.injEq] at heq
    obtain ⟨hc, hk, ht⟩ := heq
    subst hc; subst hk; subst ht
    simp only [hm, if_pos hy]

theorem siftLoop_step [Inhabited V] (cmp : Cmp V) (right : Nat) (swap : V)
    (arr : List V) (child k : Nat) (hg : child ≤ right)
    {c1 k1 : Nat} {tr1 : List (Ev V)} {y : Int}
    (hsel : sel cmp k arr child right = some (c1, k1, tr1))
    (hm : cmp k1 (arr.getD c1 default) swap = some y) (hy : ¬ y ≤ 0) :
    siftLoop cmp right swap arr child k
      = (let r := siftLoop cmp right swap
                    (arr.set ((c1 - 1) / 2) (arr.getD c1 default)) (c1 * 2 + 1) (k1 + 1)
         ⟨r.arr, r.child, r.k, r.err,
          (decide (c1 ≤ right) && decide ((c1 - 1) / 2 ≤ right)) && r.ok,
          tr1 ++ [Ev.call k1 (arr.getD c1 default) swap (some y),
                  Ev.shift ((c1 - 1) / 2) c1, Ev.free k1] ++ r.tr⟩) := by
  rw [siftLoop.eq_def, dif_pos hg]
  split
  · rename_i heq
    rw [hsel] at heq
    exact absurd heq (by simp)
  · rename_i c2 k2 tr2 heq
    rw [hsel] at heq
    simp only [Option.some.injEq, Prod.mk.injEq] at heq
    obtain ⟨hc, hk, ht⟩ := heq
    subst hc; subst hk; subst ht
    simp only [hm, if_neg hy]

/-! ### Branch equations for `siftLoop32` -/

theorem siftLoop32_zero [Inhabited V] (cmp : Cmp V) (right : Nat) (swap : V)
    (arr : List V) (child k : Nat) (hg : child ≤ right) :
    siftLoop32 cmp right swap 0 arr child k = none := by
  rw [siftLoop32.eq_def]
  dsimp only
  rw [if_pos hg]

theorem siftLoop32_base [Inhabited V] (cmp : Cmp V) (right : Nat) (swap : V)
    (fuel : Nat) (arr : List V) (child k : Nat) (hg : ¬ child ≤ right) :
    siftLoop32 cmp right swap fuel arr child k
      = some ⟨arr, child, k, false, true, []⟩ := by
  cases fuel <;> (rw [siftLoop32.eq_def]; dsimp only; rw [if_neg hg])

theorem siftLoop32_selErr [Inhabited V] (cmp : Cmp V) (right : Nat) (swap : V)
    (fuel : Nat) (arr : List V) (child k : Nat) (hg : child ≤ right)
    (hsel : sel cmp k arr child right = none) :
    siftLoop32 cmp right swap (fuel + 1) arr child k
      = some ⟨arr, child, k + 1, true, true,
          [Ev.call k (arr.getD child default) (arr.getD (child + 1) default) none]⟩ := by
  rw [siftLoop32.eq_def]
  dsimp only
  rw [if_pos hg, hsel]

theorem siftLoop32_cmpErr [Inhabited V] (cmp : Cmp V) (right : Nat) (swap : V)
    (fuel : Nat) (arr : List V) (child k : Nat) (hg : child ≤ right)
    {c1 k1 : Nat} {tr1 : List (Ev V)}
    (hsel : sel cmp k arr child right = some (c1, k1, tr1))
    (hm : cmp k1 (arr.getD c1 default) swap = none) :
    siftLoop32 cmp right swap (fuel + 1) arr child k
      = some ⟨arr, c1, k1 + 1, true, decide (c1 ≤ right),
          tr1 ++ [Ev.call k1 (arr.getD c1 default) swap none]⟩ := by
  rw [siftLoop32.eq_def]
  dsimp only
  rw [if_pos hg, hsel]
  dsimp only
  rw [hm]

theorem siftLoop32_stop [Inhabited V] (cmp : Cmp V) (right : Nat) (swap : V)
    (fuel : Nat) (arr : List V) (child k : Nat) (hg : child ≤ right)
    {c1 k1 : Nat} {tr1 : List (Ev V)} {y : Int}
    (hsel : sel cmp k arr child right = some (c1, k1, tr1))
    (hm : cmp k1 (arr.getD c1 default) swap = some y) (hy : y ≤ 0) :
    siftLoop32 cmp right swap (fuel + 1) arr child k
      = some ⟨arr, c1, k1 + 1, false, decide (c1 ≤ right),
          tr1 ++ [Ev.call k1 (arr.getD c1 default) swap (some y), Ev.free k1]⟩ := by
  rw [siftLoop32.eq_def]
  dsimp only
  rw [if_pos hg, hsel]
  dsimp only
  rw [hm]
  dsimp only
  rw [if_pos hy]

theorem siftLoop32_step [Inhabited V] (cmp : Cmp V) (right : Nat) (swap : V)
    (fuel : Nat) (arr : List V) (child k : Nat) (hg : child ≤ right)
    {c1 k1 : Nat} {tr1 : List (Ev V)} {y : Int}
    (hsel : sel cmp k arr child right = some (c1, k1, tr1))
    (hm : cmp k1 (arr.getD c1 default) swap = some y) (hy : ¬ y ≤ 0) :
    siftLoop32 cmp right swap (fuel + 1) arr child k
      = match siftLoop32 cmp right swap fuel
            (arr.set ((c1 - 1) / 2) (arr.getD c1 default))
            ((c1 * 2 + 1) % U32) (k1 + 1) with
        | none => none
        | some r =>
            some ⟨r.arr, r.child, r.k, r.err,
              (decide (c1 ≤ right) && decide ((c1 - 1) / 2 ≤ right)) && r.ok,
              tr1 ++ [Ev.call k1 (arr.getD c1 default) swap (some y),
                      Ev.shift ((c1 - 1) / 2) c1, Ev.free k1] ++ r.tr⟩ := by
  rw [siftLoop32.eq_def]
  dsimp only
  rw [if_pos hg, hsel]
  dsimp only
  rw [hm]
  dsimp only
  rw [if_neg hy]

/-! ### The faithful model and `siftLoop` agree below the overflow bound

When `2 * right + 2 < 2 ^ 32`, every child index the loop can compute
satisfies `child * 2 + 1 ≤ 2 * right + 1 < 2 ^ 32`, so the `uint32_t`
arithmetic never wraps and the fuelled faithful model returns exactly
the `siftLoop` result once the fuel exceeds the loop measure. -/

theorem siftLoop32_eq [Inhabited V] (cmp : Cmp V) (right : Nat) (swap : V)
    (h32 : 2 * right + 2 < 2 ^ 32) :
    ∀ (fuel : Nat) (arr : List V) (child k : Nat), right + 1 - child < fuel →
      siftLoop32 cmp right swap fuel arr child k
        = some (siftLoop cmp right swap arr child k) := by
  have hpow : (2 : Nat) ^ 32 = 4294967296 := by norm_num
  intro fuel
  induction fuel with
  | zero => intro arr child k hf; omega
  | succ f ih =>
      intro arr child k hf
      by_cases hg : child ≤ right
      · rcases hcase : sel cmp k arr child right with _ | ⟨c1, k1, tr1⟩
        · rw [siftLoop32_selErr cmp right swap f arr child k hg hcase,
              siftLoop_selErr cmp right swap arr child k hg hcase]
        · obtain ⟨hcl, hcu, hcr, -, -⟩ := sel_spec hg hcase
          rcases hm : cmp k1 (arr.getD c1 default) swap with _ | y
          · rw [siftLoop32_cmpErr cmp right swap f arr child k hg hcase hm,
                siftLoop_cmpErr cmp right swap arr child k hg hcase hm]
          · by_cases hy : y ≤ 0
            · rw [siftLoop32_stop cmp right swap f arr child k hg hcase hm hy,
                  siftLoop_stop cmp right swap arr child k hg hcase hm hy]
            · rw [siftLoop32_step cmp right swap f arr child k hg hcase hm hy,
                  siftLoop_step cmp right swap arr child k hg hcase hm hy]
              have hmod : (c1 * 2 + 1) % U32 = c1 * 2 + 1 := by
                apply Nat.mod_eq_of_lt
                unfold U32
                omega
              rw [hmod, ih _ (c1 * 2 + 1) (k1 + 1) (by omega)]
      · rw [siftLoop32_base cmp right swap (f + 1) arr child k hg,
            siftLoop_base cmp right swap arr child k hg]

theorem array_to_heap32_eq [Inhabited V] (cmp : Cmp V) (fuel : Nat) (arr : List V)
    (index right k : Nat) (hidx : index ≤ right) (h32 : 2 * right + 2 < 2 ^ 32)
    (hfuel : right + 2 ≤ fuel) :
    array_to_heap32 cmp fuel arr index right k
      = some (array_to_heap cmp arr index right k) := by
  have hpow : (2 : Nat) ^ 32 = 4294967296 := by norm_num
  have hmod : (index * 2 + 1) % U32 = index * 2 + 1 := by
    apply Nat.mod_eq_of_lt
    unfold U32
    omega
  unfold array_to_heap32 array_to_heap
  dsimp only
  rw [hmod, siftLoop32_eq cmp right _ h32 fuel arr (index * 2 + 1) k (by omega)]

theorem buildLoop32_eq [Inhabited V] (cmp : Cmp V) (right fuel : Nat)
    (h32 : 2 * right + 2 < 2 ^ 32) (hfuel : right + 2 ≤ fuel) :
    ∀ (i : Nat) (arr : List V) (k : Nat), i ≤ right + 1 →
      buildLoop32 cmp right fuel arr k i = some (buildLoop cmp right arr k i) := by
  intro i
  induction i with
  | zero => intro arr k hi; rfl
  | succ j ih =>
      intro arr k hi
      unfold buildLoop32 buildLoop
      rw [array_to_heap32_eq cmp fuel arr j right k (by omega) h32 hfuel]
      dsimp only
      by_cases he : (array_to_heap cmp arr j right k).err
      · rw [if_pos he, if_pos he]
      · rw [if_neg he, if_neg he, ih _ _ (by omega)]

theorem sortLoop32_eq [Inhabited V] (cmp : Cmp V) (right fuel : Nat)
    (h32 : 2 * right + 2 < 2 ^ 32) (hfuel : right + 2 ≤ fuel) :
    ∀ (i : Nat) (arr : List V) (k : Nat), i ≤ right →
      sortLoop32 cmp fuel arr k i = some (sortLoop cmp arr k i) := by
  intro i
  induction i with
  | zero => intro arr k hi; rfl
  | succ j ih =>
      intro arr k hi
      unfold sortLoop32 sortLoop
      dsimp only
      rw [array_to_heap32_eq cmp fuel _ 0 j k (by omega) (by omega) (by omega)]
      dsimp only
      by_cases he : (array_to_heap cmp
          (((arr.set 0 (arr.getD (j + 1) default)).set (j + 1) (arr.getD 0 default)))
          0 j k).err
      · rw [if_pos he, if_pos he]
      · rw [if_neg he, if_neg he, ih _ _ (by omega)]

/-- Below the overflow bound the faithful `uint32_t` driver computes
exactly the idealized driver result, for any fuel of at least
`right + 2` iterations per sift. -/
theorem heap_sort_helper32_eq [Inhabited V] (cmp : Cmp V) (fuel : Nat) (arr : List V)
    (right : Nat) (h32 : 2 * right + 2 < 2 ^ 32) (hfuel : right + 2 ≤ fuel) :
    heap_sort_helper32 cmp fuel arr right = some (heap_sort_helper cmp arr right) := by
  unfold heap_sort_helper32 heap_sort_helper
  rw [buildLoop32_eq cmp right fuel h32 hfuel (right / 2 + 1) arr 0 (by omega)]
  dsimp only
  by_cases he : (buildLoop cmp right arr 0 (right / 2 + 1)).err
  · rw [if_pos he, if_pos he]
  · rw [if_neg he, if_neg he,
        sortLoop32_eq cmp right fuel h32 hfuel right _ _ (Nat.le_refl _)]

/-! ### Helper lemmas about `List.set`, `List.getD` and multisets -/

theorem getD_set_self [Inhabited V] (l : List V) (i : Nat) (v : V) (h : i < l.length) :
    (l.set i v).getD i default = v := by
  rw [List.getD_eq_getElem _ _ (by simpa using h)]
  simp

theorem getD_set_ne [Inhabited V] (l : List V) (i j : Nat) (v : V) (hne : i ≠ j) :
    (l.set i v).getD j default = l.getD j default := by
  by_cases hj : j < l.length
  · rw [List.getD_eq_getElem _ _ (by simpa using hj), List.getD_eq_getElem _ _ hj]
    exact List.getElem_set_ne hne _
  · rw [List.getD_eq_default _ _ (by simpa using Nat.le_of_not_lt hj),
        List.getD_eq_default _ _ (Nat.le_of_not_lt hj)]

theorem set_getD_self [Inhabited V] : ∀ (l : List V) (i : Nat),
    l.set i (l.getD i default) = l
  | [], _ => by simp
  | _ :: _, 0 => by simp
  | a :: l, i + 1 => by
      simpa using set_getD_self l i

theorem set_take_drop : ∀ (l : List V) (i : Nat), i < l.length →
    ∀ v, l.set i v = l.take i ++ v :: l.drop (i + 1)
  | _ :: _, 0, _, v => by simp
  | a :: l, i + 1, h, v => by
      simp only [List.set_cons_succ, List.take_succ_cons, List.drop_succ_cons,
        List.cons_append, List.cons.injEq, true_and]
      exact set_take_drop l i (by simpa using h) v

theorem ms_set [Inhabited V] (l : List V) (i : Nat) (h : i < l.length) (v : V) :
    ((l.set i v : List V) : Multiset V) + {l.getD i default}
      = (l : Multiset V) + {v} := by
  rw [set_take_drop l i h v]
  conv_rhs => rw [← List.take_append_drop (i + 1) l, List.take_succ, List.getElem?_eq_getElem h]
  rw [List.getD_eq_getElem l default h]
  simp only [← Multiset.coe_add, ← Multiset.cons_coe, Option.toList_some]
  simp [← Multiset.singleton_add]
  abel

/-- Exchanging the contents of two distinct slots (as done by the
driver's phase-two swap, and by one sift step plus the final
write-back) preserves the multiset of elements. -/
theorem ms_set_set_swap [Inhabited V] (l : List V) (p c : Nat) (w : V)
    (hp : p < l.length) (hc : c < l.length) (hne : p ≠ c) :
    (((l.set p (l.getD c default)).set c w : List V) : Multiset V)
      = ((l.set p w : List V) : Multiset V) := by
  have h1 := ms_set l p hp (l.getD c default)
  have h2 := ms_set (l.set p (l.getD c default)) c (by simpa using hc) w
  have h3 := ms_set l p hp w
  rw [getD_set_ne l p c _ hne] at h2
  have key : (((l.set p (l.getD c default)).set c w : List V) : Multiset V)
        + ({l.getD c default} + {l.getD p default})
      = ((l.set p w : List V) : Multiset V)
        + ({l.getD c default} + {l.getD p default}) := by
    calc (((l.set p (l.getD c default)).set c w : List V) : Multiset V)
            + ({l.getD c default} + {l.getD p default})
        = (((l.set p (l.getD c default)).set c w : List V) : Multiset V)
            + {l.getD c default} + {l.getD p default} := by rw [add_assoc]
      _ = ((l.set p (l.getD c default) : List V) : Multiset V)
            + {w} + {l.getD p default} := by rw [h2]
      _ = ((l.set p (l.getD c default) : List V) : Multiset V)
            + {l.getD p default} + {w} := by
              rw [add_assoc, add_comm ({w} : Multiset V), ← add_assoc]
      _ = (l : Multiset V) + {l.getD c default} + {w} := by rw [h1]
      _ = (l : Multiset V) + {w} + {l.getD c default} := by
              rw [add_assoc, add_comm ({l.getD c default} : Multiset V), ← add_assoc]
      _ = ((l.set p w : List V) : Multiset V)
            + {l.getD p default} + {l.getD c default} := by rw [h3]
      _ = ((l.set p w : List V) : Multiset V)
            + ({l.getD c default} + {l.getD p default}) := by
              rw [add_assoc, add_comm ({l.getD p default} : Multiset V)]
  exact add_right_cancel key

/-! ### Structural facts about the sift-down loop -/

/-- Core structural invariants of the sift-down loop, for an arbitrary
comparator (failing or not): the array length is preserved, the final
hole `(child - 1) / 2` stays within `[initial hole, right]`, the
invocation counter does not decrease, slots left of the initial hole or
right of `right` are untouched, and writing `swap` into the final hole
yields (as a multiset) the array with `swap` written into the initial
hole -- the permutation invariant. -/
theorem siftLoop_struct [Inhabited V] (cmp : Cmp V) (right : Nat) (swap : V)
    (arr : List V) (child k : Nat) :
    child % 2 = 1 → (child - 1) / 2 ≤ right →
    (siftLoop cmp right swap arr child k).arr.length = arr.length ∧
    ((siftLoop cmp right swap arr child k).child - 1) / 2 ≤ right ∧
    (child - 1) / 2 ≤ ((siftLoop cmp right swap arr child k).child - 1) / 2 ∧
    k ≤ (siftLoop cmp right swap arr child k).k ∧
    (∀ j, j < (child - 1) / 2 ∨ right < j →
      (siftLoop cmp right swap arr child k).arr.getD j default = arr.getD j default) ∧
    (right < arr.length →
      (((siftLoop cmp right swap arr child k).arr.set
          (((siftLoop cmp right swap arr child k).child - 1) / 2) swap : List V) : Multiset V)
        = ((arr.set ((child - 1) / 2) swap : List V) : Multiset V)) := by
  induction arr, child, k using siftLoop.induct cmp right swap with
  | case1 arr child k hg hsel =>
      intro _ hpar
      rw [siftLoop_selErr cmp right swap arr child k hg hsel]
      dsimp only
      exact ⟨rfl, hpar, Nat.le_refl _, by omega, fun j _ => rfl, fun _ => rfl⟩
  | case2 arr child k hg c1 k1 tr1 hsel hm =>
      intro hodd hpar
      rcases sel_spec hg hsel with ⟨hc1, hc1b, hc2, hk, -⟩
      have hpar1 : (c1 - 1) / 2 = (child - 1) / 2 := by omega
      rw [siftLoop_cmpErr cmp right swap arr child k hg hsel hm]
      dsimp only
      exact ⟨rfl, by simpa [hpar1] using hpar, by omega, by omega,
        fun j _ => rfl, fun _ => by rw [hpar1]⟩
  | case3 arr child k hg c1 k1 tr1 hsel y hm hy =>
      intro hodd hpar
      rcases sel_spec hg hsel with ⟨hc1, hc1b, hc2, hk, -⟩
      have hpar1 : (c1 - 1) / 2 = (child - 1) / 2 := by omega
      rw [siftLoop_stop cmp right swap arr child k hg hsel hm hy]
      dsimp only
      exact ⟨rfl, by simpa [hpar1] using hpar, by omega, by omega,
        fun j _ => rfl, fun _ => by rw [hpar1]⟩
  | case4 arr child k hg c1 k1 tr1 hsel y hm hy parent ih =>
      intro hodd hpar
      have hparent : parent = (c1 - 1) / 2 := rfl
      rw [hparent] at ih
      clear hparent
      rcases sel_spec hg hsel with ⟨hc1, hc1b, hc2, hk, -⟩
      have hpar1 : (c1 - 1) / 2 = (child - 1) / 2 := by omega
      rw [siftLoop_step cmp right swap arr child k hg hsel hm hy]
      dsimp only
      have hodd2 : (c1 * 2 + 1) % 2 = 1 := by omega
      have hpar2 : (c1 * 2 + 1 - 1) / 2 ≤ right := by omega
      rcases ih hodd2 hpar2 with ⟨ihlen, ihpar, ihmono, ihk, ihframe, ihms⟩
      have hlen1 : (arr.set ((c1 - 1) / 2) (arr.getD c1 default)).length = arr.length :=
        List.length_set ..
      have hchild2 : (c1 * 2 + 1 - 1) / 2 = c1 := by omega
      refine ⟨by rw [ihlen, hlen1], by omega, by omega, by omega, ?_, ?_⟩
      · intro j hj
        have hj2 : j < (c1 * 2 + 1 - 1) / 2 ∨ right < j := by omega
        rw [ihframe j hj2]
        exact getD_set_ne _ _ _ _ (by omega)
      · intro hlen
        have hlen2 : right < (arr.set ((c1 - 1) / 2) (arr.getD c1 default)).length := by
          rw [hlen1]; exact hlen
        rw [ihms hlen2, hchild2]
        have hswap := ms_set_set_swap arr ((c1 - 1) / 2) c1 swap
          (by omega) (by omega) (by omega)
        rw [hswap, hpar1]
  | case5 arr child k hg =>
      intro _ hpar
      rw [siftLoop_base cmp right swap arr child k hg]
      dsimp only
      exact ⟨rfl, hpar, Nat.le_refl _, Nat.le_refl _, fun j _ => rfl, fun _ => rfl⟩


/-- Exchanging two distinct slots in place (the driver phase-two swap)
preserves the multiset of elements. -/
theorem ms_swap [Inhabited V] (l : List V) (p c : Nat)
    (hp : p < l.length) (hc : c < l.length) (hne : p ≠ c) :
    (((l.set p (l.getD c default)).set c (l.getD p default) : List V) : Multiset V)
      = (l : Multiset V) := by
  rw [ms_set_set_swap l p c _ hp hc hne, set_getD_self]

/-- Structural invariants of one `array_to_heap` call with `index ≤
right`: length preserved, counter monotone, slots outside
`[index, right]` untouched, and the array is a permutation (multiset
equality) of the input -- whether or not the comparator failed. -/
theorem to_heap_struct [Inhabited V] (cmp : Cmp V) (arr : List V) (index right k : Nat)
    (hir : index ≤ right) :
    (array_to_heap cmp arr index right k).arr.length = arr.length ∧
    k ≤ (array_to_heap cmp arr index right k).k ∧
    (∀ j, j < index ∨ right < j →
      (array_to_heap cmp arr index right k).arr.getD j default = arr.getD j default) ∧
    (right < arr.length →
      ((array_to_heap cmp arr index right k).arr : Multiset V) = (arr : Multiset V)) := by
  have hodd : (index * 2 + 1) % 2 = 1 := by omega
  have hpar : (index * 2 + 1 - 1) / 2 ≤ right := by
    have : (index * 2 + 1 - 1) / 2 = index := by omega
    omega
  have hidx : (index * 2 + 1 - 1) / 2 = index := by omega
  rcases siftLoop_struct cmp right (arr.getD index default) arr (index * 2 + 1) k hodd hpar
    with ⟨hlen, hpbound, hpmono, hkmono, hframe, hms⟩
  rw [hidx] at hpmono
  unfold array_to_heap
  dsimp only
  refine ⟨by rw [List.length_set, hlen], hkmono, ?_, ?_⟩
  · intro j hj
    rw [getD_set_ne _ _ _ _ (by omega)]
    exact hframe j (by omega)
  · intro hrlen
    have := hms hrlen
    rw [hidx, set_getD_self] at this
    exact this

/-- Phase 1 (heap construction) preserves length, counter and the
multiset of elements, for every comparator. -/
theorem buildLoop_struct [Inhabited V] (cmp : Cmp V) (right : Nat) (i : Nat) :
    ∀ (arr : List V) (k : Nat), i ≤ right / 2 + 1 → right < arr.length →
    (buildLoop cmp right arr k i).arr.length = arr.length ∧
    k ≤ (buildLoop cmp right arr k i).k ∧
    ((buildLoop cmp right arr k i).arr : Multiset V) = (arr : Multiset V) := by
  induction i with
  | zero => intro arr k _ _; exact ⟨rfl, Nat.le_refl _, rfl⟩
  | succ i ih =>
      intro arr k hi hlen
      rcases to_heap_struct cmp arr i right k (by omega)
        with ⟨hlen1, hk1, -, hms1⟩
      unfold buildLoop
      dsimp only
      split
      · exact ⟨hlen1, hk1, hms1 hlen⟩
      · dsimp only
        rcases ih (array_to_heap cmp arr i right k).arr
            (array_to_heap cmp arr i right k).k (by omega) (by rw [hlen1]; exact hlen)
          with ⟨hlen2, hk2, hms2⟩
        exact ⟨by rw [hlen2, hlen1], by omega, by rw [hms2, hms1 hlen]⟩

/-- Phase 2 (extraction) preserves length, counter and the multiset of
elements, for every comparator. -/
theorem sortLoop_struct [Inhabited V] (cmp : Cmp V) (i : Nat) :
    ∀ (arr : List V) (k : Nat), i < arr.length →
    (sortLoop cmp arr k i).arr.length = arr.length ∧
    k ≤ (sortLoop cmp arr k i).k ∧
    ((sortLoop cmp arr k i).arr : Multiset V) = (arr : Multiset V) := by
  induction i with
  | zero => intro arr k _; exact ⟨rfl, Nat.le_refl _, rfl⟩
  | succ i ih =>
      intro arr k hi
      have hswap : (((arr.set 0 (arr.getD (i + 1) default)).set (i + 1)
          (arr.getD 0 default) : List V) : Multiset V) = (arr : Multiset V) :=
        ms_swap arr 0 (i + 1) (by omega) hi (by omega)
      have hlen0 : ((arr.set 0 (arr.getD (i + 1) default)).set (i + 1)
          (arr.getD 0 default)).length = arr.length := by
        rw [List.length_set, List.length_set]
      rcases to_heap_struct cmp
          ((arr.set 0 (arr.getD (i + 1) default)).set (i + 1) (arr.getD 0 default))
          0 i k (by omega)
        with ⟨hlen1, hk1, -, hms1⟩
      unfold sortLoop
      dsimp only
      split
      · refine ⟨by rw [hlen1, hlen0], hk1, ?_⟩
        rw [hms1 (by rw [hlen0]; omega), hswap]
      · dsimp only
        set r := array_to_heap cmp
          ((arr.set 0 (arr.getD (i + 1) default)).set (i + 1) (arr.getD 0 default)) 0 i k
        rcases ih r.arr r.k (by rw [hlen1, hlen0]; omega)
          with ⟨hlen2, hk2, hms2⟩
        refine ⟨by rw [hlen2, hlen1, hlen0], by omega, ?_⟩
        rw [hms2, hms1 (by rw [hlen0]; omega), hswap]

/-- The driver preserves length, and the multiset of elements, for
every comparator and on success and failure alike. -/
theorem heap_sort_struct [Inhabited V] (cmp : Cmp V) (arr : List V) (right : Nat)
    (hlen : right < arr.length) :
    (heap_sort_helper cmp arr right).arr.length = arr.length ∧
    ((heap_sort_helper cmp arr right).arr : Multiset V) = (arr : Multiset V) := by
  rcases buildLoop_struct cmp right (right / 2 + 1) arr 0 (Nat.le_refl _) hlen
    with ⟨hlen1, -, hms1⟩
  unfold heap_sort_helper
  dsimp only
  split
  · exact ⟨hlen1, hms1⟩
  · dsimp only
    set r1 := buildLoop cmp right arr 0 (right / 2 + 1)
    rcases sortLoop_struct cmp right r1.arr r1.k (by rw [hlen1]; exact hlen)
      with ⟨hlen2, -, hms2⟩
    exact ⟨by rw [hlen2, hlen1], by rw [hms2, hms1]⟩

/-! ### Heap order development (never-failing comparator) -/

/-- The comparator sign function defines a total (pre)order: the sign
flips when the operands are exchanged, and "not greater" is
transitive. -/
def TotalCmp (f : V → V → Int) : Prop :=
  (∀ a b, f a b ≤ 0 ↔ 0 ≤ f b a) ∧
  (∀ a b c, f a b ≤ 0 → f b c ≤ 0 → f a c ≤ 0)

theorem TotalCmp.resolve {f : V → V → Int} (hf : TotalCmp f) (a : V) : f a a ≤ 0 := by
  rcases Int.le_or_lt (f a a) 0 with h | h
  · exact h
  · exact absurd ((hf.1 a a).mpr (by omega)) (by omega)

/-- Heap property over edges whose parent index is at least `m` and
whose child index is in `[1, r]`: each child compares not greater than
its parent. -/
def HeapFrom [Inhabited V] (f : V → V → Int) (a : List V) (m r : Nat) : Prop :=
  ∀ p c, m ≤ p → 1 ≤ c → c ≤ r → p = (c - 1) / 2 →
    f (a.getD c default) (a.getD p default) ≤ 0

theorem sel_cmpOf_ne_none [Inhabited V] (f : V → V → Int) (k : Nat) (arr : List V)
    (child right : Nat) : sel (cmpOf f) k arr child right ≠ none := by
  unfold sel childSel cmpOf
  split <;> simp

theorem siftLoop_cmpOf_err [Inhabited V] (f : V → V → Int) (right : Nat) (swap : V)
    (arr : List V) (child k : Nat) :
    (siftLoop (cmpOf f) right swap arr child k).err = false := by
  induction arr, child, k using siftLoop.induct (cmpOf f) right swap with
  | case1 arr child k hg hsel => exact absurd hsel (sel_cmpOf_ne_none f k arr child right)
  | case2 arr child k hg c1 k1 tr1 hsel hm => exact absurd hm (by simp [cmpOf])
  | case3 arr child k hg c1 k1 tr1 hsel y hm hy =>
      rw [siftLoop_stop (cmpOf f) right swap arr child k hg hsel hm hy]
  | case4 arr child k hg c1 k1 tr1 hsel y hm hy parent ih =>
      have hparent : parent = (c1 - 1) / 2 := rfl
      rw [hparent] at ih
      rw [siftLoop_step (cmpOf f) right swap arr child k hg hsel hm hy]
      exact ih
  | case5 arr child k hg => rw [siftLoop_base (cmpOf f) right swap arr child k hg]

/-- Sanitized description of child selection under a never-failing
comparator: either no sibling comparison happened (no right sibling in
range), or the selection advanced exactly on a strictly negative
sign. -/
theorem sel_cmpOf_key [Inhabited V] (f : V → V → Int) {k : Nat} {arr : List V}
    {child right : Nat} {c1 k1 : Nat} {tr1 : List (Ev V)} (hg : child ≤ right)
    (h : sel (cmpOf f) k arr child right = some (c1, k1, tr1)) :
    (¬ child < right ∧ c1 = child) ∨
    (child < right ∧ f (arr.getD child default) (arr.getD (child + 1) default) < 0 ∧
      c1 = child + 1) ∨
    (child < right ∧ 0 ≤ f (arr.getD child default) (arr.getD (child + 1) default) ∧
      c1 = child) := by
  rcases sel_spec hg h with ⟨-, -, -, -, hdisj⟩
  rcases hdisj with ⟨hnlt, hceq, -, -⟩ | ⟨hlt, x, hx, hcx, -, -⟩
  · exact Or.inl ⟨hnlt, hceq⟩
  · have hx2 : f (arr.getD child default) (arr.getD (child + 1) default) = x := by
      simpa [cmpOf] using hx
    by_cases hxneg : x < 0
    · rw [if_pos hxneg] at hcx
      exact Or.inr (Or.inl ⟨hlt, by omega, hcx⟩)
    · rw [if_neg hxneg] at hcx
      exact Or.inr (Or.inr ⟨hlt, by omega, hcx⟩)

/-- The child selected at lines 41-61 dominates every child of the
current hole under a total-order comparator. -/
theorem sel_cmpOf_max [Inhabited V] (f : V → V → Int) (hf : TotalCmp f)
    {k : Nat} {arr : List V} {child right : Nat} {c1 k1 : Nat} {tr1 : List (Ev V)}
    (hg : child ≤ right) (hodd : child % 2 = 1)
    (h : sel (cmpOf f) k arr child right = some (c1, k1, tr1)) :
    ∀ c, 1 ≤ c → c ≤ right → (c - 1) / 2 = (child - 1) / 2 →
      f (arr.getD c default) (arr.getD c1 default) ≤ 0 := by
  intro c hc1c hcr hcp
  rcases sel_cmpOf_key f hg h with ⟨hnlt, hceq⟩ | ⟨hlt, hxlt, hceq⟩ | ⟨hlt, hxge, hceq⟩
  · have hcc : c = child := by omega
    rw [hcc, hceq]
    exact hf.resolve _
  · have hcc : c = child ∨ c = child + 1 := by omega
    rcases hcc with hcc | hcc
    · rw [hcc, hceq]
      omega
    · rw [hcc, hceq]
      exact hf.resolve _
  · have hcc : c = child ∨ c = child + 1 := by omega
    rcases hcc with hcc | hcc
    · rw [hcc, hceq]
      exact hf.resolve _
    · rw [hcc, hceq]
      exact (hf.1 _ _).mpr (by omega)

/-- Writing a value `w` into the hole restores the heap property from
`i`, provided all non-hole edges hold (`hB`), the hole's parent
dominates `w` (`hC`), and `w` dominates the hole's children (`hE`). -/
theorem heap_write_back [Inhabited V] (f : V → V → Int)
    (arr : List V) (right i hole : Nat) (w : V)
    (hlen : right < arr.length) (hhole : i ≤ hole) (hhr : hole ≤ right)
    (hB : ∀ p c, i ≤ p → 1 ≤ c → c ≤ right → p = (c - 1) / 2 → p ≠ hole →
      f (arr.getD c default) (arr.getD p default) ≤ 0)
    (hC : hole = i ∨ f w (arr.getD ((hole - 1) / 2) default) ≤ 0)
    (hE : ∀ c, 1 ≤ c → c ≤ right → (c - 1) / 2 = hole →
      f (arr.getD c default) w ≤ 0) :
    HeapFrom f (arr.set hole w) i right := by
  intro p c hip hc1c hcr hpc
  by_cases hch : c = hole
  · rw [hch, getD_set_self arr hole w (by omega),
      getD_set_ne arr hole p w (by omega)]
    rcases hC with hCi | hCv
    · exfalso
      omega
    · have hpe : p = (hole - 1) / 2 := by omega
      rw [hpe]
      exact hCv
  · by_cases hph : p = hole
    · rw [hph, getD_set_self arr hole w (by omega),
        getD_set_ne arr hole c w (by omega)]
      exact hE c hc1c hcr (by omega)
    · rw [getD_set_ne arr hole c w (by omega), getD_set_ne arr hole p w (by omega)]
      exact hB p c hip hc1c hcr hpc hph

/-- Main sift-down invariant for a never-failing total-order
comparator: if all heap edges with parent at least `i` hold in the
array except possibly the two edges out of the current hole
`(child - 1) / 2` (`hB`), the hole's prospective parent edge for `swap`
holds (`hC`), and the hole's children are dominated by the value at the
hole's parent (`hD`), then after the loop finishes and `swap` is
written into the final hole, all heap edges with parent at least `i`
hold. -/
theorem siftLoop_heap [Inhabited V] (f : V → V → Int) (hf : TotalCmp f)
    (right : Nat) (swap : V) (i : Nat) (arr : List V) (child k : Nat) :
    child % 2 = 1 → 2 * i + 1 ≤ child → (child - 1) / 2 ≤ right → right < arr.length →
    (∀ p c, i ≤ p → 1 ≤ c → c ≤ right → p = (c - 1) / 2 → p ≠ (child - 1) / 2 →
      f (arr.getD c default) (arr.getD p default) ≤ 0) →
    ((child - 1) / 2 = i ∨
      f swap (arr.getD (((child - 1) / 2 - 1) / 2) default) ≤ 0) →
    ((child - 1) / 2 = i ∨
      ∀ c, 1 ≤ c → c ≤ right → (c - 1) / 2 = (child - 1) / 2 →
        f (arr.getD c default) (arr.getD (((child - 1) / 2 - 1) / 2) default) ≤ 0) →
    HeapFrom f ((siftLoop (cmpOf f) right swap arr child k).arr.set
      (((siftLoop (cmpOf f) right swap arr child k).child - 1) / 2) swap) i right := by
  induction arr, child, k using siftLoop.induct (cmpOf f) right swap with
  | case1 arr child k hg hsel => exact absurd hsel (sel_cmpOf_ne_none f k arr child right)
  | case2 arr child k hg c1 k1 tr1 hsel hm => exact absurd hm (by simp [cmpOf])
  | case3 arr child k hg c1 k1 tr1 hsel y hm hy =>
      intro hodd hlow hpar hlen hB hC hD
      rcases sel_spec hg hsel with ⟨hc1, hc1b, hc2, -, -⟩
      have hy2 : f (arr.getD c1 default) swap = y := by simpa [cmpOf] using hm
      have hpar1 : (c1 - 1) / 2 = (child - 1) / 2 := by omega
      rw [siftLoop_stop (cmpOf f) right swap arr child k hg hsel hm hy]
      dsimp only
      rw [hpar1]
      refine heap_write_back f arr right i ((child - 1) / 2) swap hlen (by omega) hpar
        hB hC ?_
      intro c hcg hcr hcp
      exact hf.2 _ (arr.getD c1 default) _
        (sel_cmpOf_max f hf hg hodd hsel c hcg hcr hcp) (by rw [hy2]; exact hy)
  | case4 arr child k hg c1 k1 tr1 hsel y hm hy parent ih =>
      intro hodd hlow hpar hlen hB hC hD
      have hparent : parent = (c1 - 1) / 2 := rfl
      rw [hparent] at ih
      clear hparent
      rcases sel_spec hg hsel with ⟨hc1, hc1b, hc2, -, -⟩
      have hpar1 : (c1 - 1) / 2 = (child - 1) / 2 := by omega
      have hy2 : f (arr.getD c1 default) swap = y := by simpa [cmpOf] using hm
      rw [siftLoop_step (cmpOf f) right swap arr child k hg hsel hm hy]
      dsimp only
      rw [hpar1] at ih ⊢
      -- after the shift, the array with the child value in the hole is
      -- a full heap from i
      have harr1 : HeapFrom f (arr.set ((child - 1) / 2) (arr.getD c1 default)) i right := by
        refine heap_write_back f arr right i ((child - 1) / 2) (arr.getD c1 default)
          hlen (by omega) hpar hB ?_ ?_
        · rcases hD with hDi | hDv
          · exact Or.inl hDi
          · exact Or.inr (hDv c1 (by omega) hc2 hpar1)
        · exact sel_cmpOf_max f hf hg hodd hsel
      have e1 : (arr.set ((child - 1) / 2) (arr.getD c1 default)).getD c1 default
          = arr.getD c1 default :=
        getD_set_ne arr ((child - 1) / 2) c1 (arr.getD c1 default) (by omega)
      have e2 : (arr.set ((child - 1) / 2) (arr.getD c1 default)).getD
            ((child - 1) / 2) default = arr.getD c1 default :=
        getD_set_self arr ((child - 1) / 2) (arr.getD c1 default) (by omega)
      apply ih
      · omega
      · omega
      · omega
      · rw [List.length_set]
        exact hlen
      · intro p c hip hcg hcr hpc hpne
        exact harr1 p c hip hcg hcr hpc
      · right
        have he : ((c1 * 2 + 1 - 1) / 2 - 1) / 2 = (child - 1) / 2 := by omega
        rw [he, e2]
        have h1 : ¬ f (arr.getD c1 default) swap ≤ 0 := by rw [hy2]; exact hy
        have h2 : ¬ 0 ≤ f swap (arr.getD c1 default) := fun hr => h1 ((hf.1 _ _).mpr hr)
        omega
      · right
        intro c hcg hcr hcp
        have he : ((c1 * 2 + 1 - 1) / 2 - 1) / 2 = (child - 1) / 2 := by omega
        have hcp2 : (c - 1) / 2 = c1 := by omega
        have := harr1 c1 c (by omega) hcg hcr (by omega)
        rw [e1] at this
        rw [he, e2]
        exact this
  | case5 arr child k hg =>
      intro hodd hlow hpar hlen hB hC hD
      rw [siftLoop_base (cmpOf f) right swap arr child k hg]
      dsimp only
      refine heap_write_back f arr right i ((child - 1) / 2) swap hlen (by omega) hpar
        hB hC ?_
      intro c hcg hcr hcp
      exfalso
      omega

theorem to_heap_cmpOf_err [Inhabited V] (f : V → V → Int) (arr : List V)
    (index right k : Nat) :
    (array_to_heap (cmpOf f) arr index right k).err = false := by
  unfold array_to_heap
  dsimp only
  exact siftLoop_cmpOf_err f right _ arr _ k

/-- One `array_to_heap` call with a total-order comparator turns "all
edges with parent above `index` hold" into "all edges with parent at
least `index` hold". -/
theorem to_heap_heap [Inhabited V] (f : V → V → Int) (hf : TotalCmp f) (arr : List V)
    (index right k : Nat) (hir : index ≤ right) (hlen : right < arr.length)
    (hh : HeapFrom f arr (index + 1) right) :
    HeapFrom f (array_to_heap (cmpOf f) arr index right k).arr index right := by
  have hidx : (index * 2 + 1 - 1) / 2 = index := by omega
  have hmain := siftLoop_heap f hf right (arr.getD index default) index arr
    (index * 2 + 1) k (by omega) (by omega) (by omega) hlen
    (fun p c hip hcg hcr hpc hne => hh p c (by omega) hcg hcr hpc)
    (Or.inl hidx) (Or.inl hidx)
  unfold array_to_heap
  dsimp only
  exact hmain

theorem buildLoop_cmpOf_err [Inhabited V] (f : V → V → Int) (right i : Nat) :
    ∀ (arr : List V) (k : Nat), (buildLoop (cmpOf f) right arr k i).err = false := by
  induction i with
  | zero => intro arr k; rfl
  | succ i ih =>
      intro arr k
      unfold buildLoop
      dsimp only
      rw [if_neg (by rw [to_heap_cmpOf_err]; simp)]
      exact ih _ _

/-- Phase 1 with a total-order comparator produces a full heap. -/
theorem buildLoop_heap [Inhabited V] (f : V → V → Int) (hf : TotalCmp f)
    (right : Nat) (i : Nat) :
    ∀ (arr : List V) (k : Nat), i ≤ right / 2 + 1 → right < arr.length →
    HeapFrom f arr i right →
    HeapFrom f (buildLoop (cmpOf f) right arr k i).arr 0 right := by
  induction i with
  | zero => intro arr k _ _ hh; exact hh
  | succ i ih =>
      intro arr k hi hlen hh
      unfold buildLoop
      dsimp only
      rw [if_neg (by rw [to_heap_cmpOf_err]; simp)]
      dsimp only
      have h1 : HeapFrom f (array_to_heap (cmpOf f) arr i right k).arr i right :=
        to_heap_heap f hf arr i right k (by omega) hlen hh
      rcases to_heap_struct (cmpOf f) arr i right k (by omega) with ⟨hlen1, -, -, -⟩
      exact ih _ _ (by omega) (by rw [hlen1]; exact hlen) h1

/-- No edge has its parent index above `right / 2`, so the heap
property from `right / 2 + 1` holds vacuously. -/
theorem heapFrom_top [Inhabited V] (f : V → V → Int) (arr : List V) (right : Nat) :
    HeapFrom f arr (right / 2 + 1) right := by
  intro p c hip hcg hcr hpc
  exfalso
  omega

/-- In a full heap the root dominates every element. -/
theorem heapFrom_root_max [Inhabited V] (f : V → V → Int) (hf : TotalCmp f)
    (a : List V) (r : Nat) (hh : HeapFrom f a 0 r) :
    ∀ j, j ≤ r → f (a.getD j default) (a.getD 0 default) ≤ 0 := by
  intro j
  induction j using Nat.strong_induction_on with
  | _ j ih =>
      intro hjr
      cases Nat.eq_zero_or_pos j with
      | inl h =>
          rw [h]
          exact hf.resolve _
      | inr h =>
          have hedge := hh ((j - 1) / 2) j (Nat.zero_le _) h hjr rfl
          have hpar := ih ((j - 1) / 2) (by omega) (by omega)
          exact hf.2 _ _ _ hedge hpar

/-- Every value in the sifted region of the result is either an old
value of that region or the held-aside `swap`; hence any property `Q`
true of the whole region and of `swap` is preserved. -/
theorem siftLoop_vals [Inhabited V] (cmp : Cmp V) (right : Nat) (swap : V)
    (Q : V → Prop) (arr : List V) (child k : Nat) :
    child % 2 = 1 → (child - 1) / 2 ≤ right → right < arr.length →
    (∀ j, (child - 1) / 2 ≤ j → j ≤ right → Q (arr.getD j default)) →
    ∀ j, (child - 1) / 2 ≤ j → j ≤ right →
      Q ((siftLoop cmp right swap arr child k).arr.getD j default) := by
  induction arr, child, k using siftLoop.induct cmp right swap with
  | case1 arr child k hg hsel =>
      intro hodd hpar hlen hq j hj1 hj2
      rw [siftLoop_selErr cmp right swap arr child k hg hsel]
      exact hq j hj1 hj2
  | case2 arr child k hg c1 k1 tr1 hsel hm =>
      intro hodd hpar hlen hq j hj1 hj2
      rw [siftLoop_cmpErr cmp right swap arr child k hg hsel hm]
      exact hq j hj1 hj2
  | case3 arr child k hg c1 k1 tr1 hsel y hm hy =>
      intro hodd hpar hlen hq j hj1 hj2
      rw [siftLoop_stop cmp right swap arr child k hg hsel hm hy]
      exact hq j hj1 hj2
  | case4 arr child k hg c1 k1 tr1 hsel y hm hy parent ih =>
      intro hodd hpar hlen hq j hj1 hj2
      have hparent : parent = (c1 - 1) / 2 := rfl
      rw [hparent] at ih
      clear hparent
      rcases sel_spec hg hsel with ⟨hc1, hc1b, hc2, -, -⟩
      have hpar1 : (c1 - 1) / 2 = (child - 1) / 2 := by omega
      rw [siftLoop_step cmp right swap arr child k hg hsel hm hy]
      dsimp only
      rw [hpar1] at ih ⊢
      have hq1 : ∀ j2, (c1 * 2 + 1 - 1) / 2 ≤ j2 → j2 ≤ right →
          Q ((arr.set ((child - 1) / 2) (arr.getD c1 default)).getD j2 default) := by
        intro j2 hj21 hj22
        rw [getD_set_ne arr _ _ _ (by omega)]
        exact hq j2 (by omega) hj22
      by_cases hjc : j < c1
      · rcases siftLoop_struct cmp right swap
            (arr.set ((child - 1) / 2) (arr.getD c1 default)) (c1 * 2 + 1) (k1 + 1)
            (by omega) (by omega)
          with ⟨-, -, -, -, hframe, -⟩
        rw [hframe j (by omega)]
        by_cases hjh : j = (child - 1) / 2
        · rw [hjh, getD_set_self arr _ _ (by omega)]
          exact hq c1 (by omega) (by omega)
        · rw [getD_set_ne arr _ _ _ (by omega)]
          exact hq j hj1 hj2
      · exact ih (by omega) (by omega) (by rw [List.length_set]; exact hlen) hq1
          j (by omega) hj2
  | case5 arr child k hg =>
      intro hodd hpar hlen hq j hj1 hj2
      rw [siftLoop_base cmp right swap arr child k hg]
      exact hq j hj1 hj2

/-- `array_to_heap` preserves any property `Q` holding on the whole
region `[index, right]`. -/
theorem to_heap_vals [Inhabited V] (cmp : Cmp V) (arr : List V) (index right k : Nat)
    (hir : index ≤ right) (hlen : right < arr.length) (Q : V → Prop)
    (hq : ∀ j, index ≤ j → j ≤ right → Q (arr.getD j default)) :
    ∀ j, index ≤ j → j ≤ right →
      Q ((array_to_heap cmp arr index right k).arr.getD j default) := by
  intro j hj1 hj2
  have hidx : (index * 2 + 1 - 1) / 2 = index := by omega
  rcases siftLoop_struct cmp right (arr.getD index default) arr (index * 2 + 1) k
    (by omega) (by omega) with ⟨hlen1, hpb, hpm, -, -, -⟩
  unfold array_to_heap
  dsimp only
  by_cases hjp : j = ((siftLoop cmp right (arr.getD index default) arr
      (index * 2 + 1) k).child - 1) / 2
  · rw [hjp, getD_set_self _ _ _ (by rw [hlen1]; omega)]
    exact hq index (Nat.le_refl _) hir
  · rw [getD_set_ne _ _ _ _ (by omega)]
    have hq2 := siftLoop_vals cmp right (arr.getD index default) Q arr
      (index * 2 + 1) k (by omega) (by omega) hlen
      (fun j2 hj21 hj22 => hq j2 (by omega) hj22) j (by omega) hj2
    exact hq2

theorem sortLoop_cmpOf_err [Inhabited V] (f : V → V → Int) (i : Nat) :
    ∀ (arr : List V) (k : Nat), (sortLoop (cmpOf f) arr k i).err = false := by
  induction i with
  | zero => intro arr k; rfl
  | succ i ih =>
      intro arr k
      unfold sortLoop
      dsimp only
      rw [if_neg (by rw [to_heap_cmpOf_err]; simp)]
      exact ih _ _

/-- Phase 2 invariant: if `[0, i]` is a heap, the tail pairs from
position `i` on are sorted, and everything in `[0, i]` is dominated by
the element at `i + 1`, then the extraction loop sorts the whole
array. -/
theorem sortLoop_sorted [Inhabited V] (f : V → V → Int) (hf : TotalCmp f) (i : Nat) :
    ∀ (arr : List V) (k : Nat), i < arr.length →
    HeapFrom f arr 0 i →
    (∀ j, i ≤ j → j + 1 < arr.length →
      f (arr.getD j default) (arr.getD (j + 1) default) ≤ 0) →
    (∀ j, j ≤ i → i + 1 < arr.length →
      f (arr.getD j default) (arr.getD (i + 1) default) ≤ 0) →
    ∀ j, j + 1 < arr.length →
      f ((sortLoop (cmpOf f) arr k i).arr.getD j default)
        ((sortLoop (cmpOf f) arr k i).arr.getD (j + 1) default) ≤ 0 := by
  induction i with
  | zero =>
      intro arr k _ _ hS2 _ j hj
      exact hS2 j (Nat.zero_le _) hj
  | succ i ih =>
      intro arr k hilen hheap hS2 hS3 j hj
      unfold sortLoop
      dsimp only
      rw [if_neg (by rw [to_heap_cmpOf_err]; simp)]
      dsimp only
      have hlenA : ((arr.set 0 (arr.getD (i + 1) default)).set (i + 1)
          (arr.getD 0 default)).length = arr.length := by
        rw [List.length_set, List.length_set]
      rcases to_heap_struct (cmpOf f)
          ((arr.set 0 (arr.getD (i + 1) default)).set (i + 1) (arr.getD 0 default))
          0 i k (Nat.zero_le _)
        with ⟨hlen1, -, hframe, -⟩
      have hlenR : (array_to_heap (cmpOf f)
          ((arr.set 0 (arr.getD (i + 1) default)).set (i + 1) (arr.getD 0 default))
          0 i k).arr.length = arr.length := by rw [hlen1, hlenA]
      -- values of the swapped array
      have hv0 : ((arr.set 0 (arr.getD (i + 1) default)).set (i + 1)
          (arr.getD 0 default)).getD 0 default = arr.getD (i + 1) default := by
        rw [getD_set_ne _ _ _ _ (by omega), getD_set_self arr _ _ (by omega)]
      have hvtop : ((arr.set 0 (arr.getD (i + 1) default)).set (i + 1)
          (arr.getD 0 default)).getD (i + 1) default = arr.getD 0 default := by
        rw [getD_set_self _ _ _ (by rw [List.length_set]; omega)]
      have hvmid : ∀ c, 1 ≤ c → c ≤ i →
          ((arr.set 0 (arr.getD (i + 1) default)).set (i + 1)
            (arr.getD 0 default)).getD c default = arr.getD c default := by
        intro c h1 h2
        rw [getD_set_ne _ _ _ _ (by omega), getD_set_ne _ _ _ _ (by omega)]
      have hvhigh : ∀ c, i + 1 < c →
          ((arr.set 0 (arr.getD (i + 1) default)).set (i + 1)
            (arr.getD 0 default)).getD c default = arr.getD c default := by
        intro c h1
        rw [getD_set_ne _ _ _ _ (by omega), getD_set_ne _ _ _ _ (by omega)]
      -- the region [0, i] of the swapped array is a heap from 1
      have hh1 : HeapFrom f ((arr.set 0 (arr.getD (i + 1) default)).set (i + 1)
          (arr.getD 0 default)) 1 i := by
        intro p c hp hcg hcr hpc
        rw [hvmid c hcg hcr, hvmid p (by omega) (by omega)]
        exact hheap p c (Nat.zero_le _) hcg (by omega) hpc
      have hheapR : HeapFrom f (array_to_heap (cmpOf f)
          ((arr.set 0 (arr.getD (i + 1) default)).set (i + 1) (arr.getD 0 default))
          0 i k).arr 0 i :=
        to_heap_heap f hf _ 0 i k (Nat.zero_le _) (by rw [hlenA]; omega) hh1
      -- the old root dominates everything that was in [0, i + 1]
      have hRM := heapFrom_root_max f hf arr (i + 1) hheap
      -- property Q: dominated by the old root value
      have hQr := to_heap_vals (cmpOf f)
        ((arr.set 0 (arr.getD (i + 1) default)).set (i + 1) (arr.getD 0 default))
        0 i k (Nat.zero_le _) (by rw [hlenA]; omega)
        (fun x => f x (arr.getD 0 default) ≤ 0)
        (by
          intro j2 hj21 hj22
          cases Nat.eq_zero_or_pos j2 with
          | inl h0 =>
              rw [h0, hv0]
              exact hRM (i + 1) (Nat.le_refl _)
          | inr hpos =>
              rw [hvmid j2 hpos hj22]
              exact hRM j2 (by omega))
      -- the slot i + 1 of the re-heapified array holds the old root
      have hA0 : (array_to_heap (cmpOf f)
          ((arr.set 0 (arr.getD (i + 1) default)).set (i + 1) (arr.getD 0 default))
          0 i k).arr.getD (i + 1) default = arr.getD 0 default := by
        rw [hframe (i + 1) (by omega), hvtop]
      refine ih (array_to_heap (cmpOf f)
          ((arr.set 0 (arr.getD (i + 1) default)).set (i + 1) (arr.getD 0 default))
          0 i k).arr _ (by omega) hheapR ?_ ?_ j (by omega)
      · -- tail pairs from position i
        intro j2 hij2 hj2len
        rw [hlenR] at hj2len
        by_cases hji : j2 = i
        · rw [hji, hA0]
          exact hQr i (Nat.zero_le _) (Nat.le_refl _)
        · rw [hframe j2 (by omega), hframe (j2 + 1) (by omega)]
          by_cases hji1 : j2 = i + 1
          · rw [hji1, hvtop, hvhigh (i + 2) (by omega)]
            exact hS3 0 (Nat.zero_le _) (by omega)
          · rw [hvhigh j2 (by omega), hvhigh (j2 + 1) (by omega)]
            exact hS2 j2 (by omega) hj2len
      · -- everything in [0, i] is dominated by the value now at i + 1
        intro j2 hj2i hlen2
        rw [hA0]
        exact hQr j2 (Nat.zero_le _) hj2i

/-! ### Call traces: consecutive numbering and failure discipline -/

theorem callsOf_append (t1 t2 : List (Ev V)) :
    callsOf (t1 ++ t2) = callsOf t1 ++ callsOf t2 :=
  List.filterMap_append ..

/-- The recorded calls are numbered consecutively starting at `k`, and
only the last call (if any) may have failed. -/
def ConsecFrom : Nat → List (Nat × Option Int) → Prop
  | _, [] => True
  | k, (k2, o) :: rest =>
      k2 = k ∧ ((o = none ∧ rest = []) ∨ (∃ x, o = some x ∧ ConsecFrom (k + 1) rest))

theorem consec_ids : ∀ (cs : List (Nat × Option Int)) (k : Nat), ConsecFrom k cs →
    ∀ p, p ∈ cs → k ≤ p.1
  | [], _, _, p, hp => absurd hp (by simp)
  | (k2, o) :: rest, k, hc, p, hp => by
      rcases hc with ⟨hk, hrest⟩
      rcases List.mem_cons.mp hp with hp | hp
      · rw [hp]
        omega
      · rcases hrest with ⟨-, hnil⟩ | ⟨x, -, hcons⟩
        · rw [hnil] at hp
          exact absurd hp (by simp)
        · have := consec_ids rest (k + 1) hcons p hp
          omega

theorem consec_append : ∀ (cs1 : List (Nat × Option Int)) (k : Nat),
    ConsecFrom k cs1 → (∀ p, p ∈ cs1 → p.2 ≠ none) →
    ∀ cs2, ConsecFrom (k + cs1.length) cs2 → ConsecFrom k (cs1 ++ cs2)
  | [], k, _, _, cs2, h2 => by simpa using h2
  | (k2, o) :: rest, k, hc, hok, cs2, h2 => by
      rcases hc with ⟨hk, hrest⟩
      rcases hrest with ⟨ho, -⟩ | ⟨x, ho, hcons⟩
      · exact absurd ho (hok (k2, o) (by simp))
      · refine ⟨hk, Or.inr ⟨x, ho, ?_⟩⟩
        refine consec_append rest (k + 1) hcons (fun p hp => hok p (by simp [hp])) cs2 ?_
        have : k + 1 + rest.length = k + ((k2, o) :: rest).length := by
          simp
          omega
        rw [this]
        exact h2

theorem consec_fail_last : ∀ (cs : List (Nat × Option Int)) (k : Nat), ConsecFrom k cs →
    ∀ n, n + 1 < cs.length → (cs.getD n (0, none)).2 ≠ none
  | [], _, _, n, hn => by simp at hn
  | (k2, o) :: rest, k, hc, n, hn => by
      rcases hc with ⟨hk, hrest⟩
      rcases hrest with ⟨ho, hnil⟩ | ⟨x, ho, hcons⟩
      · rw [hnil] at hn
        simp at hn
      · cases n with
        | zero => simp [ho]
        | succ n =>
            have := consec_fail_last rest (k + 1) hcons n (by simpa using hn)
            simpa using this

theorem consec_zero_fail (cs : List (Nat × Option Int)) (hc : ConsecFrom 0 cs)
    (hm : (0, (none : Option Int)) ∈ cs) : cs = [(0, (none : Option Int))] := by
  cases cs with
  | nil => exact absurd hm (by simp)
  | cons p rest =>
      rcases p with ⟨k2, o⟩
      rcases hc with ⟨hk, hrest⟩
      rcases hrest with ⟨ho, hnil⟩ | ⟨x, ho, hcons⟩
      · rw [hk, ho, hnil]
      · exfalso
        rcases List.mem_cons.mp hm with hp | hp
        · rw [ho, hk] at hp
          simp at hp
        · have := consec_ids rest 1 hcons (0, none) hp
          omega

theorem callsOf_nil : callsOf ([] : List (Ev V)) = [] := rfl

theorem callsOf_cons_call (k : Nat) (x y : V) (o : Option Int) (t : List (Ev V)) :
    callsOf (Ev.call k x y o :: t) = (k, o) :: callsOf t := rfl

theorem callsOf_cons_free (k : Nat) (t : List (Ev V)) :
    callsOf (Ev.free k :: t) = callsOf t := rfl

theorem callsOf_cons_shift (p c : Nat) (t : List (Ev V)) :
    callsOf (Ev.shift p c :: t) = callsOf t := rfl

theorem callsOf_cons_wb (p : Nat) (t : List (Ev V)) :
    callsOf (Ev.writeBack p :: t) = callsOf t := rfl

/-- Call-trace discipline of the sift-down loop: calls are numbered
consecutively from `k`, the final counter is `k` plus the number of
calls, and the loop reports an error exactly when some recorded call
failed. -/
theorem siftLoop_calls [Inhabited V] (cmp : Cmp V) (right : Nat) (swap : V)
    (arr : List V) (child k : Nat) :
    ConsecFrom k (callsOf (siftLoop cmp right swap arr child k).tr) ∧
    (siftLoop cmp right swap arr child k).k
      = k + (callsOf (siftLoop cmp right swap arr child k).tr).length ∧
    ((siftLoop cmp right swap arr child k).err = true ↔
      ∃ p ∈ callsOf (siftLoop cmp right swap arr child k).tr, p.2 = none) := by
  induction arr, child, k using siftLoop.induct cmp right swap with
  | case1 arr child k hg hsel =>
      rw [siftLoop_selErr cmp right swap arr child k hg hsel]
      dsimp only
      rw [callsOf_cons_call, callsOf_nil]
      refine ⟨⟨rfl, Or.inl ⟨rfl, rfl⟩⟩, rfl, by simp⟩
  | case2 arr child k hg c1 k1 tr1 hsel hm =>
      rcases sel_spec hg hsel with ⟨-, -, -, -, hdisj⟩
      rw [siftLoop_cmpErr cmp right swap arr child k hg hsel hm]
      dsimp only
      rcases hdisj with ⟨-, -, hk1, htr1⟩ | ⟨-, x, -, -, hk1, htr1⟩ <;> subst hk1 <;>
        subst htr1
      · simp only [List.append_assoc, List.cons_append, List.nil_append,
          callsOf_cons_call, callsOf_cons_free, callsOf_cons_shift, callsOf_nil,
          List.length_cons, List.length_nil]
        exact ⟨by simp [ConsecFrom], by simp, by simp⟩
      · simp only [List.append_assoc, List.cons_append, List.nil_append,
          callsOf_cons_call, callsOf_cons_free, callsOf_cons_shift, callsOf_nil,
          List.length_cons, List.length_nil]
        exact ⟨by simp [ConsecFrom], by simp, by simp⟩
  | case3 arr child k hg c1 k1 tr1 hsel y hm hy =>
      rcases sel_spec hg hsel with ⟨-, -, -, -, hdisj⟩
      rw [siftLoop_stop cmp right swap arr child k hg hsel hm hy]
      dsimp only
      rcases hdisj with ⟨-, -, hk1, htr1⟩ | ⟨-, x, -, -, hk1, htr1⟩ <;> subst hk1 <;>
        subst htr1
      · simp only [List.append_assoc, List.cons_append, List.nil_append,
          callsOf_cons_call, callsOf_cons_free, callsOf_cons_shift, callsOf_nil,
          List.length_cons, List.length_nil]
        exact ⟨by simp [ConsecFrom], by simp, by simp⟩
      · simp only [List.append_assoc, List.cons_append, List.nil_append,
          callsOf_cons_call, callsOf_cons_free, callsOf_cons_shift, callsOf_nil,
          List.length_cons, List.length_nil]
        exact ⟨by simp [ConsecFrom], by simp, by simp⟩
  | case4 arr child k hg c1 k1 tr1 hsel y hm hy parent ih =>
      have hparent : parent = (c1 - 1) / 2 := rfl
      rw [hparent] at ih
      clear hparent
      rcases sel_spec hg hsel with ⟨-, -, -, -, hdisj⟩
      rcases ih with ⟨ih1, ih2, ih3⟩
      rw [siftLoop_step cmp right swap arr child k hg hsel hm hy]
      dsimp only
      rcases hdisj with ⟨-, -, hk1, htr1⟩ | ⟨-, x, -, -, hk1, htr1⟩ <;> subst hk1 <;>
        subst htr1
      · simp only [List.append_assoc, List.cons_append, List.nil_append,
          callsOf_cons_call, callsOf_cons_free, callsOf_cons_shift, callsOf_nil,
          List.length_cons, List.length_nil]
        refine ⟨⟨rfl, Or.inr ⟨y, rfl, ih1⟩⟩, by rw [ih2]; omega, ?_⟩
        simp only [List.mem_cons, Prod.exists]
        constructor
        · intro he
          rcases ih3.mp he with ⟨p, hp, hp2⟩
          exact ⟨p.1, p.2, Or.inr hp, hp2⟩
        · rintro ⟨a, b, hab, hb⟩
          rcases hab with hab | hab
          · exact absurd (congrArg Prod.snd hab) (by simp [hb])
          · exact ih3.mpr ⟨(a, b), hab, hb⟩
      · simp only [List.append_assoc, List.cons_append, List.nil_append,
          callsOf_cons_call, callsOf_cons_free, callsOf_cons_shift, callsOf_nil,
          List.length_cons, List.length_nil]
        refine ⟨⟨rfl, Or.inr ⟨x, rfl, rfl, Or.inr ⟨y, rfl, ih1⟩⟩⟩,
          by rw [ih2]; omega, ?_⟩
        simp only [List.mem_cons, Prod.exists]
        constructor
        · intro he
          rcases ih3.mp he with ⟨p, hp, hp2⟩
          exact ⟨p.1, p.2, Or.inr (Or.inr hp), hp2⟩
        · rintro ⟨a, b, hab, hb⟩
          rcases hab with hab | hab | hab
          · exact absurd (congrArg Prod.snd hab) (by simp [hb])
          · exact absurd (congrArg Prod.snd hab) (by simp [hb])
          · exact ih3.mpr ⟨(a, b), hab, hb⟩
  | case5 arr child k hg =>
      rw [siftLoop_base cmp right swap arr child k hg]
      dsimp only
      rw [callsOf_nil]
      exact ⟨trivial, rfl, by simp⟩

theorem to_heap_calls [Inhabited V] (cmp : Cmp V) (arr : List V) (index right k : Nat) :
    ConsecFrom k (callsOf (array_to_heap cmp arr index right k).tr) ∧
    (array_to_heap cmp arr index right k).k
      = k + (callsOf (array_to_heap cmp arr index right k).tr).length ∧
    ((array_to_heap cmp arr index right k).err = true ↔
      ∃ p ∈ callsOf (array_to_heap cmp arr index right k).tr, p.2 = none) := by
  rcases siftLoop_calls cmp right (arr.getD index default) arr (index * 2 + 1) k
    with ⟨h1, h2, h3⟩
  unfold array_to_heap
  dsimp only
  rw [callsOf_append, callsOf_cons_wb, callsOf_nil, List.append_nil]
  exact ⟨h1, h2, h3⟩

theorem buildLoop_calls [Inhabited V] (cmp : Cmp V) (right i : Nat) :
    ∀ (arr : List V) (k : Nat),
    ConsecFrom k (callsOf (buildLoop cmp right arr k i).tr) ∧
    (buildLoop cmp right arr k i).k
      = k + (callsOf (buildLoop cmp right arr k i).tr).length ∧
    ((buildLoop cmp right arr k i).err = true ↔
      ∃ p ∈ callsOf (buildLoop cmp right arr k i).tr, p.2 = none) := by
  induction i with
  | zero =>
      intro arr k
      unfold buildLoop
      dsimp only
      rw [callsOf_nil]
      exact ⟨trivial, rfl, by simp⟩
  | succ i ih =>
      intro arr k
      rcases to_heap_calls cmp arr i right k with ⟨h1, h2, h3⟩
      unfold buildLoop
      dsimp only
      by_cases herr : (array_to_heap cmp arr i right k).err = true
      · rw [if_pos herr]
        exact ⟨h1, h2, ⟨fun _ => h3.mp herr, fun _ => rfl⟩⟩
      · rw [if_neg herr]
        dsimp only
        rcases ih (array_to_heap cmp arr i right k).arr (array_to_heap cmp arr i right k).k
          with ⟨g1, g2, g3⟩
        have hok : ∀ p ∈ callsOf (array_to_heap cmp arr i right k).tr, p.2 ≠ none :=
          fun p hp hpn => herr (h3.mpr ⟨p, hp, hpn⟩)
        rw [callsOf_append]
        refine ⟨consec_append _ k h1 hok _ (by rw [← h2]; exact g1), ?_, ?_⟩
        · rw [List.length_append]
          omega
        · constructor
          · intro he
            rcases g3.mp he with ⟨p, hp, hpn⟩
            exact ⟨p, List.mem_append_right _ hp, hpn⟩
          · rintro ⟨p, hp, hpn⟩
            rcases List.mem_append.mp hp with hp | hp
            · exact absurd hpn (hok p hp)
            · exact g3.mpr ⟨p, hp, hpn⟩

theorem sortLoop_calls [Inhabited V] (cmp : Cmp V) (i : Nat) :
    ∀ (arr : List V) (k : Nat),
    ConsecFrom k (callsOf (sortLoop cmp arr k i).tr) ∧
    (sortLoop cmp arr k i).k
      = k + (callsOf (sortLoop cmp arr k i).tr).length ∧
    ((sortLoop cmp arr k i).err = true ↔
      ∃ p ∈ callsOf (sortLoop cmp arr k i).tr, p.2 = none) := by
  induction i with
  | zero =>
      intro arr k
      unfold sortLoop
      dsimp only
      rw [callsOf_nil]
      exact ⟨trivial, rfl, by simp⟩
  | succ i ih =>
      intro arr k
      rcases to_heap_calls cmp
          ((arr.set 0 (arr.getD (i + 1) default)).set (i + 1) (arr.getD 0 default))
          0 i k with ⟨h1, h2, h3⟩
      unfold sortLoop
      dsimp only
      by_cases herr : (array_to_heap cmp
          ((arr.set 0 (arr.getD (i + 1) default)).set (i + 1) (arr.getD 0 default))
          0 i k).err = true
      · rw [if_pos herr]
        exact ⟨h1, h2, ⟨fun _ => h3.mp herr, fun _ => rfl⟩⟩
      · rw [if_neg herr]
        dsimp only
        rcases ih (array_to_heap cmp
            ((arr.set 0 (arr.getD (i + 1) default)).set (i + 1) (arr.getD 0 default))
            0 i k).arr
          (array_to_heap cmp
            ((arr.set 0 (arr.getD (i + 1) default)).set (i + 1) (arr.getD 0 default))
            0 i k).k with ⟨g1, g2, g3⟩
        have hok : ∀ p ∈ callsOf (array_to_heap cmp
            ((arr.set 0 (arr.getD (i + 1) default)).set (i + 1) (arr.getD 0 default))
            0 i k).tr, p.2 ≠ none :=
          fun p hp hpn => herr (h3.mpr ⟨p, hp, hpn⟩)
        rw [callsOf_append]
        refine ⟨consec_append _ k h1 hok _ (by rw [← h2]; exact g1), ?_, ?_⟩
        · rw [List.length_append]
          omega
        · constructor
          · intro he
            rcases g3.mp he with ⟨p, hp, hpn⟩
            exact ⟨p, List.mem_append_right _ hp, hpn⟩
          · rintro ⟨p, hp, hpn⟩
            rcases List.mem_append.mp hp with hp | hp
            · exact absurd hpn (hok p hp)
            · exact g3.mpr ⟨p, hp, hpn⟩

/-- Call-trace discipline of the whole driver: calls are numbered
consecutively from 0 and the driver returns the error value exactly
when some call failed. -/
theorem heap_sort_calls [Inhabited V] (cmp : Cmp V) (arr : List V) (right : Nat) :
    ConsecFrom 0 (callsOf (heap_sort_helper cmp arr right).tr) ∧
    ((heap_sort_helper cmp arr right).err = true ↔
      ∃ p ∈ callsOf (heap_sort_helper cmp arr right).tr, p.2 = none) := by
  rcases buildLoop_calls cmp right (right / 2 + 1) arr 0 with ⟨h1, h2, h3⟩
  unfold heap_sort_helper
  dsimp only
  by_cases herr : (buildLoop cmp right arr 0 (right / 2 + 1)).err = true
  · rw [if_pos herr]
    exact ⟨h1, ⟨fun _ => h3.mp herr, fun _ => herr⟩⟩
  · rw [if_neg herr]
    dsimp only
    rcases sortLoop_calls cmp right (buildLoop cmp right arr 0 (right / 2 + 1)).arr
      (buildLoop cmp right arr 0 (right / 2 + 1)).k with ⟨g1, g2, g3⟩
    have hok : ∀ p ∈ callsOf (buildLoop cmp right arr 0 (right / 2 + 1)).tr,
        p.2 ≠ none :=
      fun p hp hpn => herr (h3.mpr ⟨p, hp, hpn⟩)
    rw [callsOf_append]
    refine ⟨consec_append _ 0 h1 hok _ (by rw [← h2]; exact g1), ?_⟩
    constructor
    · intro he
      rcases g3.mp he with ⟨p, hp, hpn⟩
      exact ⟨p, List.mem_append_right _ hp, hpn⟩
    · rintro ⟨p, hp, hpn⟩
      rcases List.mem_append.mp hp with hp | hp
      · exact absurd hpn (hok p hp)
      · exact g3.mpr ⟨p, hp, hpn⟩

theorem append_eq_single {A : Type} {a b : List A} {x : A} (h : a ++ b = [x]) :
    (a = [] ∧ b = [x]) ∨ (a = [x] ∧ b = []) := by
  cases a with
  | nil => exact Or.inl ⟨rfl, by simpa using h⟩
  | cons y t =>
      rw [List.cons_append] at h
      simp only [List.cons.injEq] at h
      rcases h with ⟨hy, ht⟩
      rcases List.append_eq_nil.mp ht with ⟨ht1, ht2⟩
      exact Or.inr ⟨by rw [hy, ht1], ht2⟩

/-- Whenever the loop guard holds, at least one comparator call is
recorded. -/
theorem siftLoop_calls_ne_nil [Inhabited V] (cmp : Cmp V) (right : Nat) (swap : V)
    (arr : List V) (child k : Nat) (hg : child ≤ right) :
    callsOf (siftLoop cmp right swap arr child k).tr ≠ [] := by
  intro h
  cases hsel : sel cmp k arr child right with
  | none =>
      rw [siftLoop_selErr cmp right swap arr child k hg hsel] at h
      rw [callsOf_cons_call] at h
      exact List.cons_ne_nil _ _ h
  | some v =>
      obtain ⟨c1, k1, tr1⟩ := v
      cases hm : cmp k1 (arr.getD c1 default) swap with
      | none =>
          rw [siftLoop_cmpErr cmp right swap arr child k hg hsel hm] at h
          dsimp only at h
          rw [callsOf_append, callsOf_cons_call, callsOf_nil] at h
          exact List.cons_ne_nil _ _ (List.append_eq_nil.mp h).2
      | some y =>
          by_cases hy : y ≤ 0
          · rw [siftLoop_stop cmp right swap arr child k hg hsel hm hy] at h
            dsimp only at h
            rw [callsOf_append, callsOf_cons_call, callsOf_cons_free, callsOf_nil] at h
            exact List.cons_ne_nil _ _ (List.append_eq_nil.mp h).2
          · rw [siftLoop_step cmp right swap arr child k hg hsel hm hy] at h
            dsimp only at h
            rw [callsOf_append, callsOf_append, callsOf_cons_call, callsOf_cons_shift,
              callsOf_cons_free, callsOf_nil] at h
            exact List.cons_ne_nil _ _
              (List.append_eq_nil.mp (List.append_eq_nil.mp h).1).2
  
theorem siftLoop_no_calls [Inhabited V] (cmp : Cmp V) (right : Nat) (swap : V)
    (arr : List V) (child k : Nat)
    (h : callsOf (siftLoop cmp right swap arr child k).tr = []) :
    (siftLoop cmp right swap arr child k).arr = arr ∧
    (siftLoop cmp right swap arr child k).child = child ∧
    (siftLoop cmp right swap arr child k).err = false := by
  by_cases hg : child ≤ right
  · exact absurd h (siftLoop_calls_ne_nil cmp right swap arr child k hg)
  · rw [siftLoop_base cmp right swap arr child k hg]
    exact ⟨rfl, rfl, rfl⟩

/-- If the loop recorded exactly one call and that call failed, the
array and the `child` variable are unchanged. -/
theorem siftLoop_single_fail [Inhabited V] (cmp : Cmp V) (right : Nat) (swap : V)
    (arr : List V) (child k k9 : Nat)
    (h : callsOf (siftLoop cmp right swap arr child k).tr = [(k9, none)]) :
    (siftLoop cmp right swap arr child k).arr = arr ∧
    (siftLoop cmp right swap arr child k).child = child := by
  by_cases hg : child ≤ right
  · cases hsel : sel cmp k arr child right with
    | none =>
        rw [siftLoop_selErr cmp right swap arr child k hg hsel]
        exact ⟨rfl, rfl⟩
    | some v =>
        obtain ⟨c1, k1, tr1⟩ := v
        rcases sel_spec hg hsel with ⟨-, -, -, -, hdisj⟩
        cases hm : cmp k1 (arr.getD c1 default) swap with
        | none =>
            rw [siftLoop_cmpErr cmp right swap arr child k hg hsel hm] at h ⊢
            dsimp only at h ⊢
            rcases hdisj with ⟨-, hc1, -, htr1⟩ | ⟨-, x, -, -, -, htr1⟩
            · exact ⟨rfl, by rw [hc1]⟩
            · exfalso
              subst htr1
              rw [List.cons_append, List.cons_append, List.nil_append,
                callsOf_cons_call, callsOf_cons_free, callsOf_cons_call,
                callsOf_nil] at h
              simp at h
        | some y =>
            by_cases hy : y ≤ 0
            · exfalso
              rw [siftLoop_stop cmp right swap arr child k hg hsel hm hy] at h
              dsimp only at h
              rcases hdisj with ⟨-, -, -, htr1⟩ | ⟨-, x, -, -, -, htr1⟩ <;> subst htr1
              · rw [List.nil_append, callsOf_cons_call, callsOf_cons_free,
                  callsOf_nil] at h
                simp at h
              · rw [List.cons_append, List.cons_append, List.nil_append,
                  callsOf_cons_call, callsOf_cons_free, callsOf_cons_call,
                  callsOf_cons_free, callsOf_nil] at h
                simp at h
            · exfalso
              rw [siftLoop_step cmp right swap arr child k hg hsel hm hy] at h
              dsimp only at h
              rcases hdisj with ⟨-, -, -, htr1⟩ | ⟨-, x, -, -, -, htr1⟩ <;> subst htr1 <;>
                simp only [List.append_assoc, List.cons_append, List.nil_append,
                  callsOf_cons_call, callsOf_cons_free, callsOf_cons_shift] at h <;>
                simp at h
  · rw [siftLoop_base cmp right swap arr child k hg]
    exact ⟨rfl, rfl⟩

theorem to_heap_no_calls [Inhabited V] (cmp : Cmp V) (arr : List V) (index right k : Nat)
    (h : callsOf (array_to_heap cmp arr index right k).tr = []) :
    (array_to_heap cmp arr index right k).arr = arr ∧
    (array_to_heap cmp arr index right k).k = k ∧
    (array_to_heap cmp arr index right k).err = false := by
  rcases to_heap_calls cmp arr index right k with ⟨-, h2, h3⟩
  have hcs : callsOf (siftLoop cmp right (arr.getD index default) arr
      (index * 2 + 1) k).tr = [] := by
    revert h
    unfold array_to_heap
    dsimp only
    rw [callsOf_append, callsOf_cons_wb, callsOf_nil, List.append_nil]
    exact id
  rcases siftLoop_no_calls cmp right (arr.getD index default) arr (index * 2 + 1) k hcs
    with ⟨ha, hc, -⟩
  have herr : (array_to_heap cmp arr index right k).err = false := by
    cases hx : (array_to_heap cmp arr index right k).err
    · rfl
    · rcases h3.mp hx with ⟨p, hp, -⟩
      rw [h] at hp
      exact absurd hp (by simp)
  refine ⟨?_, by rw [h2, h]; simp, herr⟩
  unfold array_to_heap
  dsimp only
  rw [ha, hc]
  have : (index * 2 + 1 - 1) / 2 = index := by omega
  rw [this, set_getD_self]

theorem to_heap_single_fail [Inhabited V] (cmp : Cmp V) (arr : List V)
    (index right k k9 : Nat)
    (h : callsOf (array_to_heap cmp arr index right k).tr = [(k9, none)]) :
    (array_to_heap cmp arr index right k).arr = arr ∧
    (array_to_heap cmp arr index right k).err = true := by
  rcases to_heap_calls cmp arr index right k with ⟨-, -, h3⟩
  have hcs : callsOf (siftLoop cmp right (arr.getD index default) arr
      (index * 2 + 1) k).tr = [(k9, none)] := by
    revert h
    unfold array_to_heap
    dsimp only
    rw [callsOf_append, callsOf_cons_wb, callsOf_nil, List.append_nil]
    exact id
  rcases siftLoop_single_fail cmp right (arr.getD index default) arr (index * 2 + 1) k k9
    hcs with ⟨ha, hc⟩
  refine ⟨?_, h3.mpr ⟨(k9, none), by rw [h]; simp, rfl⟩⟩
  unfold array_to_heap
  dsimp only
  rw [ha, hc]
  have : (index * 2 + 1 - 1) / 2 = index := by omega
  rw [this, set_getD_self]

theorem buildLoop_single_fail [Inhabited V] (cmp : Cmp V) (right i : Nat) :
    ∀ (arr : List V) (k k9 : Nat),
    callsOf (buildLoop cmp right arr k i).tr = [(k9, none)] →
    (buildLoop cmp right arr k i).arr = arr ∧ (buildLoop cmp right arr k i).err = true := by
  induction i with
  | zero =>
      intro arr k k9 h
      unfold buildLoop at h
      dsimp only at h
      rw [callsOf_nil] at h
      exact absurd h (by simp)
  | succ i ih =>
      intro arr k k9 h
      unfold buildLoop at h ⊢
      dsimp only at h ⊢
      by_cases herr : (array_to_heap cmp arr i right k).err = true
      · rw [if_pos herr] at h ⊢
        dsimp only at h ⊢
        rcases to_heap_single_fail cmp arr i right k k9 h with ⟨ha, -⟩
        exact ⟨ha, rfl⟩
      · rw [if_neg herr] at h ⊢
        dsimp only at h ⊢
        rw [callsOf_append] at h
        rcases append_eq_single h with ⟨h1, h2⟩ | ⟨h1, h2⟩
        · rcases to_heap_no_calls cmp arr i right k h1 with ⟨ha, hk, -⟩
          rw [ha, hk] at h2 ⊢
          rcases ih arr k k9 h2 with ⟨ga, ge⟩
          exact ⟨ga, ge⟩
        · exfalso
          rcases to_heap_single_fail cmp arr i right k k9 h1 with ⟨-, he⟩
          exact herr he

theorem to_heap_zero_calls_ne_nil [Inhabited V] (cmp : Cmp V) (arr : List V)
    (right k : Nat) (hr : 1 ≤ right) :
    callsOf (array_to_heap cmp arr 0 right k).tr ≠ [] := by
  unfold array_to_heap
  dsimp only
  rw [callsOf_append, callsOf_cons_wb, callsOf_nil, List.append_nil]
  exact siftLoop_calls_ne_nil cmp right (arr.getD 0 default) arr (0 * 2 + 1) k (by omega)

theorem buildLoop_calls_ne_nil [Inhabited V] (cmp : Cmp V) (right : Nat)
    (hr : 1 ≤ right) (i : Nat) :
    ∀ (arr : List V) (k : Nat), callsOf (buildLoop cmp right arr k (i + 1)).tr ≠ [] := by
  induction i with
  | zero =>
      intro arr k h
      unfold buildLoop at h
      dsimp only at h
      by_cases herr : (array_to_heap cmp arr 0 right k).err = true
      · rw [if_pos herr] at h
        exact to_heap_zero_calls_ne_nil cmp arr right k hr h
      · rw [if_neg herr] at h
        dsimp only at h
        rw [callsOf_append] at h
        exact to_heap_zero_calls_ne_nil cmp arr right k hr (List.append_eq_nil.mp h).1
  | succ i ih =>
      intro arr k h
      unfold buildLoop at h
      dsimp only at h
      by_cases herr : (array_to_heap cmp arr (i + 1) right k).err = true
      · rw [if_pos herr] at h
        rcases to_heap_calls cmp arr (i + 1) right k with ⟨-, -, h3⟩
        rcases h3.mp herr with ⟨p, hp, -⟩
        rw [h] at hp
        exact absurd hp (by simp)
      · rw [if_neg herr] at h
        dsimp only at h
        rw [callsOf_append] at h
        exact ih _ _ (List.append_eq_nil.mp h).2

/-! ### Release discipline of numeric comparison outcomes -/

/-- Shapes of sift-loop traces: the head call carries the current
counter, every successful call is released (`free`) before the next
call, possibly after the shift write, and a failing call ends the
trace. -/
inductive STr {V : Type} : Nat → List (Ev V) → Prop where
  | nil (k : Nat) : STr k []
  | fail (k : Nat) (x y : V) : STr k [Ev.call k x y none]
  | stop (k : Nat) (x y : V) (v : Int) : STr k [Ev.call k x y (some v), Ev.free k]
  | sel (k : Nat) (x y : V) (v : Int) (tr : List (Ev V)) (h : STr (k + 1) tr) :
      STr k (Ev.call k x y (some v) :: Ev.free k :: tr)
  | mov (k : Nat) (x y : V) (v : Int) (p c : Nat) (tr : List (Ev V))
      (h : STr (k + 1) tr) :
      STr k (Ev.call k x y (some v) :: Ev.shift p c :: Ev.free k :: tr)

theorem str_call_ge {k : Nat} {tr : List (Ev V)} (h : STr k tr) :
    ∀ kk x y o, Ev.call kk x y o ∈ tr → k ≤ kk := by
  induction h with
  | nil k => intro kk x y o hm; simp at hm
  | fail k x y =>
      intro kk x2 y2 o hm
      simp only [List.mem_cons, List.not_mem_nil, or_false, Ev.call.injEq] at hm
      obtain ⟨h1, -⟩ := hm
      omega
  | stop k x y v =>
      intro kk x2 y2 o hm
      simp only [List.mem_cons, List.not_mem_nil, or_false] at hm
      rcases hm with hm | hm
      · rw [Ev.call.injEq] at hm
        obtain ⟨h1, -⟩ := hm
        omega
      · exact absurd hm (by simp)
  | sel k x y v tr htr ih =>
      intro kk x2 y2 o hm
      simp only [List.mem_cons] at hm
      rcases hm with hm | hm | hm
      · rw [Ev.call.injEq] at hm
        obtain ⟨h1, -⟩ := hm
        omega
      · exact absurd hm (by simp)
      · have := ih kk x2 y2 o hm
        omega
  | mov k x y v p c tr htr ih =>
      intro kk x2 y2 o hm
      simp only [List.mem_cons] at hm
      rcases hm with hm | hm | hm | hm
      · rw [Ev.call.injEq] at hm
        obtain ⟨h1, -⟩ := hm
        omega
      · exact absurd hm (by simp)
      · exact absurd hm (by simp)
      · have := ih kk x2 y2 o hm
        omega

theorem str_free_ge {k : Nat} {tr : List (Ev V)} (h : STr k tr) :
    ∀ kk, Ev.free kk ∈ tr → k ≤ kk := by
  induction h with
  | nil k => intro kk hm; simp at hm
  | fail k x y => intro kk hm; simp at hm
  | stop k x y v =>
      intro kk hm
      simp only [List.mem_cons, List.not_mem_nil, or_false] at hm
      rcases hm with hm | hm
      · exact absurd hm (by simp)
      · injection hm with h1
        omega
  | sel k x y v tr htr ih =>
      intro kk hm
      simp only [List.mem_cons] at hm
      rcases hm with hm | hm | hm
      · exact absurd hm (by simp)
      · injection hm with h1
        omega
      · have := ih kk hm
        omega
  | mov k x y v p c tr htr ih =>
      intro kk hm
      simp only [List.mem_cons] at hm
      rcases hm with hm | hm | hm | hm
      · exact absurd hm (by simp)
      · exact absurd hm (by simp)
      · injection hm with h1
        omega
      · have := ih kk hm
        omega

/-- Every sift-loop trace has the `STr` shape. -/
theorem siftLoop_str [Inhabited V] (cmp : Cmp V) (right : Nat) (swap : V)
    (arr : List V) (child k : Nat) :
    STr k (siftLoop cmp right swap arr child k).tr := by
  induction arr, child, k using siftLoop.induct cmp right swap with
  | case1 arr child k hg hsel =>
      rw [siftLoop_selErr cmp right swap arr child k hg hsel]
      exact STr.fail ..
  | case2 arr child k hg c1 k1 tr1 hsel hm =>
      rcases sel_spec hg hsel with ⟨-, -, -, -, hdisj⟩
      rw [siftLoop_cmpErr cmp right swap arr child k hg hsel hm]
      dsimp only
      rcases hdisj with ⟨-, -, hk1, htr1⟩ | ⟨-, x, -, -, hk1, htr1⟩ <;> subst hk1 <;>
        subst htr1
      · rw [List.nil_append]
        exact STr.fail ..
      · rw [List.cons_append, List.cons_append, List.nil_append]
        exact STr.sel _ _ _ _ _ (STr.fail ..)
  | case3 arr child k hg c1 k1 tr1 hsel y hm hy =>
      rcases sel_spec hg hsel with ⟨-, -, -, -, hdisj⟩
      rw [siftLoop_stop cmp right swap arr child k hg hsel hm hy]
      dsimp only
      rcases hdisj with ⟨-, -, hk1, htr1⟩ | ⟨-, x, -, -, hk1, htr1⟩ <;> subst hk1 <;>
        subst htr1
      · rw [List.nil_append]
        exact STr.stop ..
      · rw [List.cons_append, List.cons_append, List.nil_append]
        exact STr.sel _ _ _ _ _ (STr.stop ..)
  | case4 arr child k hg c1 k1 tr1 hsel y hm hy parent ih =>
      rcases sel_spec hg hsel with ⟨-, -, -, -, hdisj⟩
      rw [siftLoop_step cmp right swap arr child k hg hsel hm hy]
      dsimp only
      rcases hdisj with ⟨-, -, hk1, htr1⟩ | ⟨-, x, -, -, hk1, htr1⟩ <;> subst hk1 <;>
        subst htr1
      · simp only [List.append_assoc, List.cons_append, List.nil_append]
        exact STr.mov _ _ _ _ _ _ _ ih
      · simp only [List.append_assoc, List.cons_append, List.nil_append]
        exact STr.sel _ _ _ _ _ (STr.mov _ _ _ _ _ _ _ ih)
  | case5 arr child k hg =>
      rw [siftLoop_base cmp right swap arr child k hg]
      exact STr.nil _

/-- The release discipline extracted from the trace shape: a successful
call at position `i` has exactly one matching release, located after it
and before any later call. -/
theorem str_release [DecidableEq V] {k : Nat} {tr : List (Ev V)} (h : STr k tr) :
    ∀ (i kk : Nat) (x y : V) (v : Int), tr[i]? = some (Ev.call kk x y (some v)) →
      tr.count (Ev.free kk) = 1 ∧
      ∃ j, i < j ∧ tr[j]? = some (Ev.free kk) ∧
        ∀ (m : Nat), i < m → m < j → ∀ (k2 : Nat) (x2 y2 : V) (o2 : Option Int),
          tr[m]? ≠ some (Ev.call k2 x2 y2 o2) := by
  induction h with
  | nil k => intro i kk x y v hi; simp at hi
  | fail k x y =>
      intro i kk x2 y2 v hi
      match i with
      | 0 => simp at hi
      | n + 1 => simp at hi
  | stop k x y v =>
      intro i kk x2 y2 v2 hi
      match i with
      | 0 =>
          simp only [List.getElem?_cons_zero, Option.some.injEq, Ev.call.injEq] at hi
          obtain ⟨hk, -, -, -⟩ := hi
          subst hk
          refine ⟨by simp [List.count_cons, List.count_nil], 1, by omega, by simp, ?_⟩
          intro m hm1 hm2
          omega
      | 1 => simp at hi
      | n + 2 => simp at hi
  | sel k x y v tr htr ih =>
      intro i kk x2 y2 v2 hi
      match i with
      | 0 =>
          simp only [List.getElem?_cons_zero, Option.some.injEq, Ev.call.injEq] at hi
          obtain ⟨hk, -, -, -⟩ := hi
          subst hk
          have hnot : Ev.free k ∉ tr := fun hmem => by
            have := str_free_ge htr k hmem
            omega
          refine ⟨?_, 1, by omega, by simp, ?_⟩
          · rw [List.count_cons, List.count_cons]
            rw [List.count_eq_zero.mpr hnot]
            simp
          · intro m hm1 hm2
            omega
      | 1 => simp at hi
      | n + 2 =>
          simp only [List.getElem?_cons_succ] at hi
          rcases ih n kk x2 y2 v2 hi with ⟨hcount, j, hj1, hj2, hbet⟩
          have hkk : k + 1 ≤ kk := by
            have hmem : Ev.call kk x2 y2 (some v2) ∈ tr := by
              rcases List.getElem?_eq_some_iff.mp hi with ⟨hlt, hget⟩
              exact hget ▸ List.getElem_mem hlt
            exact str_call_ge htr kk x2 y2 _ hmem
          refine ⟨?_, j + 2, by omega, by simpa using hj2, ?_⟩
          · rw [List.count_cons, List.count_cons, hcount]
            have c1 : ¬ ((Ev.free k : Ev V) = Ev.free kk) := by
              intro hc
              injection hc with hc
              omega
            have c2 : ¬ ((Ev.call k x y (some v) : Ev V) = Ev.free kk) := by intro hc; cases hc
            simp [c1, c2]
          · intro m hm1 hm2
            match m with
            | m2 + 2 =>
                simp only [List.getElem?_cons_succ]
                exact hbet m2 (by omega) (by omega)
  | mov k x y v p c tr htr ih =>
      intro i kk x2 y2 v2 hi
      match i with
      | 0 =>
          simp only [List.getElem?_cons_zero, Option.some.injEq, Ev.call.injEq] at hi
          obtain ⟨hk, -, -, -⟩ := hi
          subst hk
          have hnot : Ev.free k ∉ tr := fun hmem => by
            have := str_free_ge htr k hmem
            omega
          refine ⟨?_, 2, by omega, by simp, ?_⟩
          · rw [List.count_cons, List.count_cons, List.count_cons]
            rw [List.count_eq_zero.mpr hnot]
            simp
          · intro m hm1 hm2
            match m with
            | 1 => simp
      | 1 => simp at hi
      | 2 => simp at hi
      | n + 3 =>
          simp only [List.getElem?_cons_succ] at hi
          rcases ih n kk x2 y2 v2 hi with ⟨hcount, j, hj1, hj2, hbet⟩
          have hkk : k + 1 ≤ kk := by
            have hmem : Ev.call kk x2 y2 (some v2) ∈ tr := by
              rcases List.getElem?_eq_some_iff.mp hi with ⟨hlt, hget⟩
              exact hget ▸ List.getElem_mem hlt
            exact str_call_ge htr kk x2 y2 _ hmem
          refine ⟨?_, j + 3, by omega, by simpa using hj2, ?_⟩
          · rw [List.count_cons, List.count_cons, List.count_cons, hcount]
            have c1 : ¬ ((Ev.free k : Ev V) = Ev.free kk) := by
              intro hc
              injection hc with hc
              omega
            have c2 : ¬ ((Ev.call k x y (some v) : Ev V) = Ev.free kk) := by intro hc; cases hc
            have c3 : ¬ ((Ev.shift p c : Ev V) = Ev.free kk) := by intro hc; cases hc
            simp [c1, c2, c3]
          · intro m hm1 hm2
            match m with
            | m2 + 3 =>
                simp only [List.getElem?_cons_succ]
                exact hbet m2 (by omega) (by omega)

/-! ### Executed asserts and write bounds -/

/-- All array positions named by a write event lie within
`[0, right]`. -/
def EvBound (right : Nat) (e : Ev V) : Prop :=
  (∀ p c, e = Ev.shift p c → p ≤ right ∧ c ≤ right) ∧
  (∀ p, e = Ev.writeBack p → p ≤ right)

theorem evBound_call {right k : Nat} {x y : V} {o : Option Int} :
    EvBound right (Ev.call k x y o) :=
  ⟨fun p c h => (by cases h), fun p h => (by cases h)⟩

theorem evBound_free {right k : Nat} :
    EvBound right (Ev.free k : Ev V) :=
  ⟨fun p c h => (by cases h), fun p h => (by cases h)⟩

theorem evBound_shift {right p c : Nat} (h1 : p ≤ right) (h2 : c ≤ right) :
    EvBound right (Ev.shift p c : Ev V) :=
  ⟨fun p2 c2 h => (by cases h; exact ⟨h1, h2⟩), fun p2 h => (by cases h)⟩

theorem evBound_wb {right p : Nat} (h : p ≤ right) :
    EvBound right (Ev.writeBack p : Ev V) :=
  ⟨fun p2 c2 h2 => (by cases h2), fun p2 h2 => (by cases h2; exact h)⟩

theorem evBound_mono {r1 r2 : Nat} {e : Ev V} (h : r1 ≤ r2) (hb : EvBound r1 e) :
    EvBound r2 e :=
  ⟨fun p c hp => by rcases hb.1 p c hp with ⟨a, b⟩; omega,
   fun p hp => by have := hb.2 p hp; omega⟩

/-- Every `JERRY_ASSERT` executed inside the loop evaluates to true,
and every shift write stays inside `[0, right]`. -/
theorem siftLoop_ok [Inhabited V] (cmp : Cmp V) (right : Nat) (swap : V)
    (arr : List V) (child k : Nat) :
    child % 2 = 1 → (child - 1) / 2 ≤ right →
    (siftLoop cmp right swap arr child k).ok = true ∧
    (∀ e ∈ (siftLoop cmp right swap arr child k).tr, EvBound right e) := by
  induction arr, child, k using siftLoop.induct cmp right swap with
  | case1 arr child k hg hsel =>
      intro hodd hpar
      rw [siftLoop_selErr cmp right swap arr child k hg hsel]
      refine ⟨rfl, ?_⟩
      intro e he
      simp only [List.mem_cons, List.not_mem_nil, or_false] at he
      rw [he]
      exact evBound_call
  | case2 arr child k hg c1 k1 tr1 hsel hm =>
      intro hodd hpar
      rcases sel_spec hg hsel with ⟨hc1, hc1b, hc2, -, hdisj⟩
      rw [siftLoop_cmpErr cmp right swap arr child k hg hsel hm]
      dsimp only
      refine ⟨by simp [hc2], ?_⟩
      intro e he
      rcases hdisj with ⟨-, -, -, htr1⟩ | ⟨-, x, -, -, -, htr1⟩ <;> subst htr1 <;>
        simp only [List.cons_append, List.nil_append, List.mem_cons,
          List.not_mem_nil, or_false] at he
      · rw [he]
        exact evBound_call
      · rcases he with he | he | he <;> rw [he]
        · exact evBound_call
        · exact evBound_free
        · exact evBound_call
  | case3 arr child k hg c1 k1 tr1 hsel y hm hy =>
      intro hodd hpar
      rcases sel_spec hg hsel with ⟨hc1, hc1b, hc2, -, hdisj⟩
      rw [siftLoop_stop cmp right swap arr child k hg hsel hm hy]
      dsimp only
      refine ⟨by simp [hc2], ?_⟩
      intro e he
      rcases hdisj with ⟨-, -, -, htr1⟩ | ⟨-, x, -, -, -, htr1⟩ <;> subst htr1 <;>
        simp only [List.cons_append, List.nil_append, List.mem_cons,
          List.not_mem_nil, or_false] at he
      · rcases he with he | he <;> rw [he]
        · exact evBound_call
        · exact evBound_free
      · rcases he with he | he | he | he <;> rw [he]
        · exact evBound_call
        · exact evBound_free
        · exact evBound_call
        · exact evBound_free
  | case4 arr child k hg c1 k1 tr1 hsel y hm hy parent ih =>
      intro hodd hpar
      have hparent : parent = (c1 - 1) / 2 := rfl
      rw [hparent] at ih
      clear hparent
      rcases sel_spec hg hsel with ⟨hc1, hc1b, hc2, -, hdisj⟩
      rcases ih (by omega) (by omega) with ⟨ih1, ih2⟩
      rw [siftLoop_step cmp right swap arr child k hg hsel hm hy]
      dsimp only
      refine ⟨?_, ?_⟩
      · rw [ih1]
        have h1 : c1 ≤ right := hc2
        have h2 : (c1 - 1) / 2 ≤ right := by omega
        simp [h1, h2]
      · intro e he
        rcases hdisj with ⟨-, -, -, htr1⟩ | ⟨-, x, -, -, -, htr1⟩ <;> subst htr1 <;>
          simp only [List.append_assoc, List.cons_append, List.nil_append,
            List.mem_cons] at he
        · rcases he with he | he | he | he
          · rw [he]; exact evBound_call
          · rw [he]; exact evBound_shift (by omega) hc2
          · rw [he]; exact evBound_free
          · exact ih2 e he
        · rcases he with he | he | he | he | he | he
          · rw [he]; exact evBound_call
          · rw [he]; exact evBound_free
          · rw [he]; exact evBound_call
          · rw [he]; exact evBound_shift (by omega) hc2
          · rw [he]; exact evBound_free
          · exact ih2 e he
  | case5 arr child k hg =>
      intro hodd hpar
      rw [siftLoop_base cmp right swap arr child k hg]
      exact ⟨rfl, fun e he => absurd he (by simp)⟩

theorem to_heap_ok [Inhabited V] (cmp : Cmp V) (arr : List V) (index right k : Nat)
    (hir : index ≤ right) :
    (array_to_heap cmp arr index right k).ok = true ∧
    (∀ e ∈ (array_to_heap cmp arr index right k).tr, EvBound right e) := by
  rcases siftLoop_ok cmp right (arr.getD index default) arr (index * 2 + 1) k
    (by omega) (by omega) with ⟨h1, h2⟩
  rcases siftLoop_struct cmp right (arr.getD index default) arr (index * 2 + 1) k
    (by omega) (by omega) with ⟨-, hpb, -, -, -, -⟩
  unfold array_to_heap
  dsimp only
  refine ⟨by rw [h1, decide_eq_true hpb]; rfl, ?_⟩
  intro e he
  rcases List.mem_append.mp he with he | he
  · exact h2 e he
  · simp only [List.mem_cons, List.not_mem_nil, or_false] at he
    rw [he]
    exact evBound_wb hpb

theorem buildLoop_ok [Inhabited V] (cmp : Cmp V) (right i : Nat) :
    ∀ (arr : List V) (k : Nat), i ≤ right / 2 + 1 →
    (buildLoop cmp right arr k i).ok = true ∧
    (∀ e ∈ (buildLoop cmp right arr k i).tr, EvBound right e) := by
  induction i with
  | zero =>
      intro arr k _
      unfold buildLoop
      exact ⟨rfl, fun e he => absurd he (by simp)⟩
  | succ i ih =>
      intro arr k hi
      rcases to_heap_ok cmp arr i right k (by omega) with ⟨h1, h2⟩
      unfold buildLoop
      dsimp only
      split
      · exact ⟨h1, h2⟩
      · dsimp only
        rcases ih (array_to_heap cmp arr i right k).arr (array_to_heap cmp arr i right k).k
          (by omega) with ⟨g1, g2⟩
        refine ⟨by rw [h1, g1]; rfl, ?_⟩
        intro e he
        rcases List.mem_append.mp he with he | he
        · exact h2 e he
        · exact g2 e he

theorem sortLoop_ok [Inhabited V] (cmp : Cmp V) (B i : Nat) :
    ∀ (arr : List V) (k : Nat), i ≤ B →
    (sortLoop cmp arr k i).ok = true ∧
    (∀ e ∈ (sortLoop cmp arr k i).tr, EvBound B e) := by
  induction i with
  | zero =>
      intro arr k _
      unfold sortLoop
      exact ⟨rfl, fun e he => absurd he (by simp)⟩
  | succ i ih =>
      intro arr k hi
      rcases to_heap_ok cmp
          ((arr.set 0 (arr.getD (i + 1) default)).set (i + 1) (arr.getD 0 default))
          0 i k (Nat.zero_le _) with ⟨h1, h2⟩
      unfold sortLoop
      dsimp only
      split
      · exact ⟨h1, fun e he => evBound_mono (by omega) (h2 e he)⟩
      · dsimp only
        rcases ih (array_to_heap cmp
            ((arr.set 0 (arr.getD (i + 1) default)).set (i + 1) (arr.getD 0 default))
            0 i k).arr
          (array_to_heap cmp
            ((arr.set 0 (arr.getD (i + 1) default)).set (i + 1) (arr.getD 0 default))
            0 i k).k (by omega) with ⟨g1, g2⟩
        refine ⟨by rw [h1, g1]; rfl, ?_⟩
        intro e he
        rcases List.mem_append.mp he with he | he
        · exact evBound_mono (by omega) (h2 e he)
        · exact g2 e he

/-- Driver-level assert and write-bound discipline. -/
theorem heap_sort_ok [Inhabited V] (cmp : Cmp V) (arr : List V) (right : Nat) :
    (heap_sort_helper cmp arr right).ok = true ∧
    (∀ e ∈ (heap_sort_helper cmp arr right).tr, EvBound right e) := by
  rcases buildLoop_ok cmp right (right / 2 + 1) arr 0 (Nat.le_refl _) with ⟨h1, h2⟩
  unfold heap_sort_helper
  dsimp only
  split
  · exact ⟨h1, h2⟩
  · dsimp only
    rcases sortLoop_ok cmp right right (buildLoop cmp right arr 0 (right / 2 + 1)).arr
      (buildLoop cmp right arr 0 (right / 2 + 1)).k (Nat.le_refl _) with ⟨g1, g2⟩
    refine ⟨by rw [h1, g1]; rfl, ?_⟩
    intro e he
    rcases List.mem_append.mp he with he | he
    · exact h2 e he
    · exact g2 e he

/-- Degenerate run with `right = 0`: no comparator call, array
unchanged, success. -/
theorem heap_sort_zero [Inhabited V] (cmp : Cmp V) (arr : List V) :
    (heap_sort_helper cmp arr 0).arr = arr ∧
    (heap_sort_helper cmp arr 0).err = false ∧
    callsOf (heap_sort_helper cmp arr 0).tr = [] := by
  have hs : siftLoop cmp 0 (arr.getD 0 default) arr (0 * 2 + 1) 0
      = ⟨arr, 0 * 2 + 1, 0, false, true, []⟩ :=
    siftLoop_base cmp 0 (arr.getD 0 default) arr (0 * 2 + 1) 0 (by omega)
  have hth : array_to_heap cmp arr 0 0 0
      = ⟨arr, 0, false, true, [Ev.writeBack 0]⟩ := by
    unfold array_to_heap
    dsimp only
    rw [hs]
    dsimp only
    rw [set_getD_self]
    rfl
  have hb : buildLoop cmp 0 arr 0 1 = ⟨arr, 0, false, true, [Ev.writeBack 0]⟩ := by
    unfold buildLoop
    dsimp only
    rw [hth]
    dsimp only
    rw [if_neg (by simp)]
    unfold buildLoop
    rfl
  have h01 : (0 : Nat) / 2 + 1 = 1 := rfl
  unfold heap_sort_helper
  dsimp only
  rw [h01, hb]
  dsimp only
  rw [if_neg (by simp)]
  dsimp only
  unfold sortLoop
  dsimp only
  rw [callsOf_append, callsOf_cons_wb, callsOf_nil]
  exact ⟨rfl, rfl, rfl⟩

/-! ### Claim theorems -/

/-! ### The wrap at `right = 2 ^ 32 - 2` is real

On an array of length `2 ^ 32 - 1` the sift of index `2 ^ 31 - 2`
starts at `child = 2 ^ 32 - 3`; one shift later `child * 2 + 1` wraps
to `2 ^ 32 - 3` again, so the hole and the write-back positions come
apart.  The lemmas below execute the faithful model on the two
concrete inputs. -/

theorem set_value_id [Inhabited V] (l : List V) (p : Nat) (v : V)
    (hv : l.getD p default = v) : l.set p v = l := by
  rw [← hv]
  exact set_getD_self l p

theorem getD_replicate_zero (n j : Nat) :
    (List.replicate n (0 : Nat)).getD j default = 0 := by
  by_cases hj : j < n
  · rw [List.getD_eq_getElem _ _ (by simpa using hj)]
    simp
  · rw [List.getD_eq_default _ _ (by simpa using Nat.le_of_not_lt hj)]
    rfl

theorem cexArr_length : cexArr.length = 4294967295 := by
  unfold cexArr
  rw [List.length_set, List.length_replicate]

theorem cexArr_getD_ne (j : Nat) (hj : j ≠ 2147483645) :
    cexArr.getD j default = 0 := by
  unfold cexArr
  rw [getD_set_ne _ _ _ _ (fun h => hj h.symm)]
  exact getD_replicate_zero _ _

theorem cexArr_getD_hole : cexArr.getD 2147483645 default = 7 := by
  unfold cexArr
  exact getD_set_self _ _ _ (by rw [List.length_replicate]; norm_num)

theorem cexArr_wb : cexArr.set 2147483645 (0 : Nat) = List.replicate 4294967295 0 := by
  unfold cexArr
  rw [List.set_set]
  exact set_value_id _ _ _ (getD_replicate_zero _ _)

/-- The wrapped sift of index `2 ^ 31 - 2` on `cexArr` under `cexCmp`:
three iterations (the second one reached through the wrap), ending in a
stop with final child `2 ^ 32 - 5`, six calls made, no error, and the
array unchanged so far (both shifts happened to write the value already
present). -/
theorem cex_sift : ∃ o t, siftLoop32 cexCmp 4294967294 0 10 cexArr 4294967293 0
    = some ⟨cexArr, 4294967291, 6, false, o, t⟩ := by
  have hsel3 : sel cexCmp 4 cexArr 4294967291 4294967294
      = some (4294967291, 5,
          [Ev.call 4 (cexArr.getD 4294967291 default) (cexArr.getD (4294967291 + 1) default)
             (some 1), Ev.free 4]) := by
    unfold sel childSel
    rw [if_pos (show (4294967291 : Nat) < 4294967294 by norm_num)]
    rfl
  have h3 : ∃ o t, siftLoop32 cexCmp 4294967294 0 8 cexArr 4294967291 4
      = some ⟨cexArr, 4294967291, 6, false, o, t⟩ :=
    ⟨_, _, siftLoop32_stop cexCmp 4294967294 0 7 cexArr 4294967291 4 (by norm_num) hsel3 rfl
      (by norm_num)⟩
  obtain ⟨o3, t3, h3⟩ := h3
  have hsel2 : sel cexCmp 2 cexArr 4294967293 4294967294
      = some (4294967293, 3,
          [Ev.call 2 (cexArr.getD 4294967293 default) (cexArr.getD (4294967293 + 1) default)
             (some 1), Ev.free 2]) := by
    unfold sel childSel
    rw [if_pos (show (4294967293 : Nat) < 4294967294 by norm_num)]
    rfl
  have h2 : ∃ o t, siftLoop32 cexCmp 4294967294 0 9 cexArr 4294967293 2
      = some ⟨cexArr, 4294967291, 6, false, o, t⟩ := by
    have e := siftLoop32_step cexCmp 4294967294 0 8 cexArr 4294967293 2
      (show (4294967293 : Nat) ≤ 4294967294 by norm_num) hsel2 rfl
      (show ¬ (1 : Int) ≤ 0 by norm_num)
    rw [show ((4294967293 : Nat) - 1) / 2 = 2147483646 from by norm_num] at e
    rw [cexArr_getD_ne 4294967293 (by norm_num)] at e
    rw [set_value_id cexArr 2147483646 0 (cexArr_getD_ne 2147483646 (by norm_num))] at e
    rw [show ((4294967293 : Nat) * 2 + 1) % U32 = 4294967291 from by
          simp only [U32]] at e
    rw [show (3 : Nat) + 1 = 4 from rfl] at e
    rw [h3] at e
    exact ⟨_, _, e⟩
  obtain ⟨o2, t2, h2⟩ := h2
  have hsel1 : sel cexCmp 0 cexArr 4294967293 4294967294
      = some (4294967294, 1,
          [Ev.call 0 (cexArr.getD 4294967293 default) (cexArr.getD (4294967293 + 1) default)
             (some (-1)), Ev.free 0]) := by
    unfold sel childSel
    rw [if_pos (show (4294967293 : Nat) < 4294967294 by norm_num)]
    rfl
  have e := siftLoop32_step cexCmp 4294967294 0 9 cexArr 4294967293 0
    (show (4294967293 : Nat) ≤ 4294967294 by norm_num) hsel1 rfl
    (show ¬ (1 : Int) ≤ 0 by norm_num)
  rw [show ((4294967294 : Nat) - 1) / 2 = 2147483646 from by norm_num] at e
  rw [cexArr_getD_ne 4294967294 (by norm_num)] at e
  rw [set_value_id cexArr 2147483646 0 (cexArr_getD_ne 2147483646 (by norm_num))] at e
  rw [show ((4294967294 : Nat) * 2 + 1) % U32 = 4294967293 from by
        simp only [U32]] at e
  rw [show (1 : Nat) + 1 = 2 from rfl] at e
  rw [h2] at e
  exact ⟨_, _, e⟩

theorem array_to_heap32_some [Inhabited V] (cmp : Cmp V) (fuel : Nat) (arr : List V)
    (index right k : Nat) {r : LoopRes V}
    (h : siftLoop32 cmp right (arr.getD index default) fuel arr
           ((index * 2 + 1) % U32) k = some r) :
    array_to_heap32 cmp fuel arr index right k
      = some ⟨r.arr.set ((r.child - 1) / 2) (arr.getD index default), r.k, r.err,
          r.ok && decide ((r.child - 1) / 2 ≤ right),
          r.tr ++ [Ev.writeBack ((r.child - 1) / 2)]⟩ := by
  unfold array_to_heap32
  dsimp only
  rw [h]

theorem buildLoop32_succ_err [Inhabited V] (cmp : Cmp V) (right fuel : Nat)
    (arr : List V) (k i : Nat) {r : Res V}
    (h : array_to_heap32 cmp fuel arr i right k = some r) (he : r.err = true) :
    buildLoop32 cmp right fuel arr k (i + 1)
      = some ⟨r.arr, r.k, true, r.ok, r.tr⟩ := by
  unfold buildLoop32
  rw [h]
  dsimp only
  rw [if_pos he]

theorem buildLoop32_succ_ok [Inhabited V] (cmp : Cmp V) (right fuel : Nat)
    (arr : List V) (k i : Nat) {r r2 : Res V}
    (h : array_to_heap32 cmp fuel arr i right k = some r) (he : r.err = false)
    (h2 : buildLoop32 cmp right fuel r.arr r.k i = some r2) :
    buildLoop32 cmp right fuel arr k (i + 1)
      = some ⟨r2.arr, r2.k, r2.err, r.ok && r2.ok, r.tr ++ r2.tr⟩ := by
  unfold buildLoop32
  rw [h]
  dsimp only
  rw [if_neg (by rw [he]; exact Bool.false_ne_true), h2]

/-- The first phase-1 sift (index `2 ^ 31 - 1`): its left child is
`2 ^ 32 - 1 > right`, so no call is made and the write-back is the
identity. -/
theorem cex_toheap_first : ∃ o t, array_to_heap32 cexCmp 10 cexArr 2147483647 4294967294 0
    = some ⟨cexArr, 0, false, o, t⟩ := by
  have hsl : siftLoop32 cexCmp 4294967294 (cexArr.getD 2147483647 default) 10 cexArr
      ((2147483647 * 2 + 1) % U32) 0
      = some ⟨cexArr, 4294967295, 0, false, true, []⟩ := by
    rw [show ((2147483647 : Nat) * 2 + 1) % U32 = 4294967295 from by simp only [U32]]
    exact siftLoop32_base _ _ _ _ _ _ _ (by norm_num)
  have e := array_to_heap32_some cexCmp 10 cexArr 2147483647 4294967294 0 hsl
  dsimp only at e
  rw [show ((4294967295 : Nat) - 1) / 2 = 2147483647 from by norm_num] at e
  rw [set_getD_self] at e
  exact ⟨_, _, e⟩

/-- The second phase-1 sift (index `2 ^ 31 - 2`): the wrapped run of
`cex_sift` followed by the write-back, which lands at the parent of the
wrapped child, `2 ^ 31 - 3` -- erasing the `7` held there instead of
filling the actual hole.  The result is the all-zero array. -/
theorem cex_toheap_mid : ∃ o t, array_to_heap32 cexCmp 10 cexArr 2147483646 4294967294 0
    = some ⟨List.replicate 4294967295 0, 6, false, o, t⟩ := by
  obtain ⟨o, t, hs⟩ := cex_sift
  have hsl : siftLoop32 cexCmp 4294967294 (cexArr.getD 2147483646 default) 10 cexArr
      ((2147483646 * 2 + 1) % U32) 0
      = some ⟨cexArr, 4294967291, 6, false, o, t⟩ := by
    rw [cexArr_getD_ne 2147483646 (by norm_num)]
    rw [show ((2147483646 : Nat) * 2 + 1) % U32 = 4294967293 from by simp only [U32]]
    exact hs
  have e := array_to_heap32_some cexCmp 10 cexArr 2147483646 4294967294 0 hsl
  dsimp only at e
  rw [show ((4294967291 : Nat) - 1) / 2 = 2147483645 from by norm_num] at e
  rw [cexArr_getD_ne 2147483646 (by norm_num)] at e
  rw [cexArr_wb] at e
  exact ⟨_, _, e⟩

/-- The third phase-1 sift (index `2 ^ 31 - 3`, on the already-damaged
all-zero array): its first comparator invocation is number 6, which
fails, so the sift returns an error after an identity write-back. -/
theorem cex_toheap_last : ∃ o t, array_to_heap32 cexCmp 10 (List.replicate 4294967295 0)
      2147483645 4294967294 6
    = some ⟨List.replicate 4294967295 0, 7, true, o, t⟩ := by
  have hsel : sel cexCmp 6 (List.replicate 4294967295 0) 4294967291 4294967294 = none := by
    unfold sel childSel
    rw [if_pos (show (4294967291 : Nat) < 4294967294 by norm_num)]
    rfl
  have hsl : siftLoop32 cexCmp 4294967294
      ((List.replicate 4294967295 0).getD 2147483645 default) 10
      (List.replicate 4294967295 0) ((2147483645 * 2 + 1) % U32) 6
      = some ⟨List.replicate 4294967295 0, 4294967291, 7, true, true,
          [Ev.call 6 ((List.replicate 4294967295 0).getD 4294967291 default)
             ((List.replicate 4294967295 0).getD (4294967291 + 1) default) none]⟩ := by
    rw [show ((2147483645 : Nat) * 2 + 1) % U32 = 4294967291 from by simp only [U32]]
    exact siftLoop32_selErr cexCmp 4294967294 _ 9 _ 4294967291 6 (by norm_num) hsel
  have e := array_to_heap32_some cexCmp 10 (List.replicate 4294967295 0) 2147483645
    4294967294 6 hsl
  dsimp only at e
  rw [show ((4294967291 : Nat) - 1) / 2 = 2147483645 from by norm_num] at e
  rw [set_getD_self] at e
  exact ⟨_, _, e⟩

/-- Phase 1 of the faithful driver on `cexArr`: three sifts run (the
second one through the wrap), the comparator fails on call 6, and the
loop returns the all-zero array with the error flag set. -/
theorem cex_build : ∃ o t, buildLoop32 cexCmp 4294967294 10 cexArr 0 2147483648
    = some ⟨List.replicate 4294967295 0, 7, true, o, t⟩ := by
  obtain ⟨oa, ta, ha⟩ := cex_toheap_first
  obtain ⟨ob, tb, hb⟩ := cex_toheap_mid
  obtain ⟨oc, tc, hc⟩ := cex_toheap_last
  have b3 : buildLoop32 cexCmp 4294967294 10 (List.replicate 4294967295 0) 6 2147483646
      = some ⟨List.replicate 4294967295 0, 7, true, oc, tc⟩ :=
    buildLoop32_succ_err cexCmp 4294967294 10 (List.replicate 4294967295 0) 6 2147483645
      hc rfl
  have b2 : buildLoop32 cexCmp 4294967294 10 cexArr 0 2147483647
      = some ⟨List.replicate 4294967295 0, 7, true, ob && oc, tb ++ tc⟩ :=
    buildLoop32_succ_ok cexCmp 4294967294 10 cexArr 0 2147483646 hb rfl b3
  have b1 : buildLoop32 cexCmp 4294967294 10 cexArr 0 2147483648
      = some ⟨List.replicate 4294967295 0, 7, true, oa && (ob && oc), ta ++ (tb ++ tc)⟩ :=
    buildLoop32_succ_ok cexCmp 4294967294 10 cexArr 0 2147483647 ha rfl b2
  exact ⟨_, _, b1⟩

/-- Claim C1 as frozen is false of the `uint32_t` program: on the
array `cexArr` of length `2 ^ 32 - 1` (so `right = 2 ^ 32 - 2`) with
comparator `cexCmp`, the faithful driver terminates (well within fuel
10) and returns an array that is NOT a permutation of the input: the
value `7` held at index `2 ^ 31 - 3` has been erased, because after the
`child = child * 2 + 1` wrap at line 89 the write-back parent
`(child - 1) / 2` no longer points at the hole. -/
theorem c1_counterexample :
    ∃ r, heap_sort_helper32 cexCmp 10 cexArr 4294967294 = some r ∧
      r.err = true ∧ ¬ List.Perm r.arr cexArr := by
  obtain ⟨o, t, hb⟩ := cex_build
  have hd : heap_sort_helper32 cexCmp 10 cexArr 4294967294
      = some ⟨List.replicate 4294967295 0, 7, true, o, t⟩ := by
    unfold heap_sort_helper32
    rw [show (4294967294 : Nat) / 2 + 1 = 2147483648 from by norm_num]
    rw [hb]
    dsimp only
    rw [if_pos rfl]
  refine ⟨_, hd, rfl, ?_⟩
  intro hperm
  have h7 : (7 : Nat) ∈ cexArr := by
    have hg : cexArr.getD 2147483645 default = 7 := cexArr_getD_hole
    rw [List.getD_eq_getElem _ _ (by rw [cexArr_length]; norm_num)] at hg
    rw [← hg]
    exact List.getElem_mem _
  have h7r : (7 : Nat) ∈ List.replicate 4294967295 0 := hperm.mem_iff.mpr h7
  rw [List.mem_replicate] at h7r
  exact absurd h7r.2 (by norm_num)

theorem buildLoop32_succ_none [Inhabited V] (cmp : Cmp V) (right fuel : Nat)
    (arr : List V) (k i : Nat) {r : Res V}
    (h : array_to_heap32 cmp fuel arr i right k = some r) (he : r.err = false)
    (h2 : buildLoop32 cmp right fuel r.arr r.k i = none) :
    buildLoop32 cmp right fuel arr k (i + 1) = none := by
  unfold buildLoop32
  rw [h]
  dsimp only
  rw [if_neg (by rw [he]; exact Bool.false_ne_true), h2]

theorem buildLoop32_succ_fail [Inhabited V] (cmp : Cmp V) (right fuel : Nat)
    (arr : List V) (k i : Nat)
    (h : array_to_heap32 cmp fuel arr i right k = none) :
    buildLoop32 cmp right fuel arr k (i + 1) = none := by
  unfold buildLoop32
  rw [h]

theorem divArr_length : divArr.length = 4294967295 := by
  unfold divArr
  rw [List.length_set, List.length_set, List.length_replicate]

theorem divArr_getD_lo : divArr.getD 4294967293 default = 1 := by
  unfold divArr
  rw [getD_set_ne _ _ _ _ (by norm_num)]
  exact getD_set_self _ _ _ (by rw [List.length_replicate]; norm_num)

theorem divArr_getD_hi : divArr.getD 4294967294 default = 2 := by
  unfold divArr
  exact getD_set_self _ _ _ (by rw [List.length_set, List.length_replicate]; norm_num)

theorem divArr_getD_ne3 (j : Nat) (h1 : j ≠ 4294967293) (h2 : j ≠ 4294967294) :
    divArr.getD j default = 0 := by
  unfold divArr
  rw [getD_set_ne _ _ _ _ (fun h => h2 h.symm), getD_set_ne _ _ _ _ (fun h => h1 h.symm)]
  exact getD_replicate_zero _ _

theorem arrFix_getD_lo : arrFix.getD 4294967293 default = 1 := by
  unfold arrFix
  rw [getD_set_ne _ _ _ _ (by norm_num)]
  exact divArr_getD_lo

theorem arrFix_getD_hi : arrFix.getD 4294967294 default = 2 := by
  unfold arrFix
  rw [getD_set_ne _ _ _ _ (by norm_num)]
  exact divArr_getD_hi

theorem arrFix_fix : arrFix.set 2147483646 (2 : Nat) = arrFix := by
  unfold arrFix
  rw [List.set_set]

theorem div_sel (k : Nat) : sel (cmpOf fDiv) k arrFix 4294967293 4294967294
    = some (4294967294, k + 1, [Ev.call k 1 2 (some (-1)), Ev.free k]) := by
  unfold sel childSel
  rw [if_pos (show (4294967293 : Nat) < 4294967294 by norm_num)]
  rw [arrFix_getD_lo]
  rw [show arrFix.getD (4294967293 + 1) default = 2 from arrFix_getD_hi]
  rfl

theorem div_swapcmp (k : Nat) : cmpOf fDiv k (arrFix.getD 4294967294 default) 0 = some 2 := by
  rw [arrFix_getD_hi]
  rfl

/-- Once the wrapped sift on `divArr` has shifted `2` into slot
`2 ^ 31 - 2` and wrapped `child` back to `2 ^ 32 - 3`, its state is
stationary: the loop never terminates, for any fuel bound. -/
theorem div_loop : ∀ fuel k, siftLoop32 (cmpOf fDiv) 4294967294 0 fuel arrFix 4294967293 k
    = none := by
  intro fuel
  induction fuel with
  | zero => intro k; exact siftLoop32_zero _ _ _ _ _ _ (by norm_num)
  | succ f ih =>
      intro k
      rw [siftLoop32_step (cmpOf fDiv) 4294967294 0 f arrFix 4294967293 k
            (show (4294967293 : Nat) ≤ 4294967294 by norm_num) (div_sel k)
            (div_swapcmp (k + 1)) (show ¬ (2 : Int) ≤ 0 by norm_num)]
      rw [show ((4294967294 : Nat) - 1) / 2 = 2147483646 from by norm_num]
      rw [arrFix_getD_hi]
      rw [arrFix_fix]
      rw [show ((4294967294 : Nat) * 2 + 1) % U32 = 4294967293 from by simp only [U32]]
      rw [ih (k + 1 + 1)]

theorem div_sel0 (k : Nat) : sel (cmpOf fDiv) k divArr 4294967293 4294967294
    = some (4294967294, k + 1, [Ev.call k 1 2 (some (-1)), Ev.free k]) := by
  unfold sel childSel
  rw [if_pos (show (4294967293 : Nat) < 4294967294 by norm_num)]
  rw [divArr_getD_lo]
  rw [show divArr.getD (4294967293 + 1) default = 2 from divArr_getD_hi]
  rfl

theorem div_swapcmp0 (k : Nat) : cmpOf fDiv k (divArr.getD 4294967294 default) 0 = some 2 := by
  rw [divArr_getD_hi]
  rfl

theorem div_entry : ∀ fuel k, siftLoop32 (cmpOf fDiv) 4294967294 0 fuel divArr 4294967293 k
    = none := by
  intro fuel
  cases fuel with
  | zero => intro k; exact siftLoop32_zero _ _ _ _ _ _ (by norm_num)
  | succ f =>
      intro k
      rw [siftLoop32_step (cmpOf fDiv) 4294967294 0 f divArr 4294967293 k
            (show (4294967293 : Nat) ≤ 4294967294 by norm_num) (div_sel0 k)
            (div_swapcmp0 (k + 1)) (show ¬ (2 : Int) ≤ 0 by norm_num)]
      rw [show ((4294967294 : Nat) - 1) / 2 = 2147483646 from by norm_num]
      rw [divArr_getD_hi]
      rw [show divArr.set 2147483646 (2 : Nat) = arrFix from rfl]
      rw [show ((4294967294 : Nat) * 2 + 1) % U32 = 4294967293 from by simp only [U32]]
      rw [div_loop f (k + 1 + 1)]

theorem div_toheap (fuel k : Nat) :
    array_to_heap32 (cmpOf fDiv) fuel divArr 2147483646 4294967294 k = none := by
  unfold array_to_heap32
  dsimp only
  rw [divArr_getD_ne3 2147483646 (by norm_num) (by norm_num)]
  rw [show ((2147483646 : Nat) * 2 + 1) % U32 = 4294967293 from by simp only [U32]]
  rw [div_entry fuel k]

theorem div_toheap_first (fuel k : Nat) :
    ∃ o t, array_to_heap32 (cmpOf fDiv) fuel divArr 2147483647 4294967294 k
      = some ⟨divArr, k, false, o, t⟩ := by
  have hsl : siftLoop32 (cmpOf fDiv) 4294967294 (divArr.getD 2147483647 default) fuel divArr
      ((2147483647 * 2 + 1) % U32) k = some ⟨divArr, 4294967295, k, false, true, []⟩ := by
    rw [show ((2147483647 : Nat) * 2 + 1) % U32 = 4294967295 from by simp only [U32]]
    exact siftLoop32_base _ _ _ _ _ _ _ (by norm_num)
  have e := array_to_heap32_some (cmpOf fDiv) fuel divArr 2147483647 4294967294 k hsl
  dsimp only at e
  rw [show ((4294967295 : Nat) - 1) / 2 = 2147483647 from by norm_num] at e
  rw [set_getD_self] at e
  exact ⟨_, _, e⟩

/-- Phase 1 on `divArr` hangs: the first sift (index `2 ^ 31 - 1`)
makes no calls, and the second (index `2 ^ 31 - 2`) never returns. -/
theorem div_build (fuel k : Nat) :
    buildLoop32 (cmpOf fDiv) 4294967294 fuel divArr k 2147483648 = none := by
  obtain ⟨o, t, ha⟩ := div_toheap_first fuel k
  exact buildLoop32_succ_none (cmpOf fDiv) 4294967294 fuel divArr k 2147483647 ha rfl
    (buildLoop32_succ_fail (cmpOf fDiv) 4294967294 fuel divArr k 2147483646
      (div_toheap fuel k))

theorem div_driver (fuel : Nat) :
    heap_sort_helper32 (cmpOf fDiv) fuel divArr 4294967294 = none := by
  unfold heap_sort_helper32
  rw [show (4294967294 : Nat) / 2 + 1 = 2147483648 from by norm_num]
  rw [div_build fuel 0]

theorem fDiv_total : TotalCmp fDiv := by
  constructor
  · intro a b
    simp only [fDiv]
    omega
  · intro a b c h1 h2
    simp only [fDiv] at h1 h2 ⊢
    omega

/-- Claim C2 as frozen is false of the `uint32_t` program: on `divArr`
(length `2 ^ 32 - 1`, so `right = 2 ^ 32 - 2`) with the never-failing
total-order comparator `fDiv`, the sift of index `2 ^ 31 - 2` reaches
`child = 2 ^ 32 - 2`, shifts, and `child * 2 + 1` wraps back to
`2 ^ 32 - 3`, restoring the same loop state; the comparator is pure, so
the C loop repeats this forever.  The faithful model accordingly
returns `none` (fuel exhausted) for EVERY fuel bound: the driver never
returns success with a sorted array because it never returns at
all. -/
theorem c2_counterexample :
    TotalCmp fDiv ∧ divArr.length = 4294967294 + 1 ∧
    ∀ fuel, heap_sort_helper32 (cmpOf fDiv) fuel divArr 4294967294 = none :=
  ⟨fDiv_total, by rw [divArr_length], div_driver⟩

/-- Claim C8 as frozen is false of the `uint32_t` program for the same
reason as claim C2: phase 1 alone (the heap-construction loop) on
`divArr` under the never-failing total-order comparator `fDiv` hangs in
the wrapped sift of index `2 ^ 31 - 2`, so no post-phase-1 state with
`array[0]` dominating is ever reached; the faithful model returns
`none` for every fuel bound. -/
theorem c8_counterexample :
    TotalCmp fDiv ∧ divArr.length = 4294967294 + 1 ∧
    ∀ fuel, buildLoop32 (cmpOf fDiv) 4294967294 fuel divArr 0 (4294967294 / 2 + 1)
      = none := by
  refine ⟨fDiv_total, by rw [divArr_length], fun fuel => ?_⟩
  rw [show (4294967294 : Nat) / 2 + 1 = 2147483648 from by norm_num]
  exact div_build fuel 0

/-- Permutation invariant of the idealized (no-wrap) model: for every
array of length `right + 1` and every comparator behaviour, the array
after the run is a permutation of the array before it. -/
theorem heap_sort_perm [Inhabited V] (cmp : Cmp V) (arr : List V) (right : Nat)
    (hlen : arr.length = right + 1) :
    List.Perm (heap_sort_helper cmp arr right).arr arr := by
  rcases heap_sort_struct cmp arr right (by omega) with ⟨-, hms⟩
  exact Multiset.coe_eq_coe.mp hms

/-- Claim C1 (amended with the no-overflow bound): for every array of
length `right + 1` with `right` small enough that `2 * right + 2` does
not overflow a 32-bit unsigned integer, and every comparator
behaviour -- including a comparator that fails on its k-th invocation,
for any k -- the faithful `uint32_t` driver terminates and the array
after a call to `ecma_builtin_helper_array_heap_sort_helper` is a
permutation (exact multiset equality) of the array before the call,
whether the call returns success or failure.  Without the bound the
property fails on the real `uint32_t` arithmetic: see
`c1_counterexample`. -/
theorem c1_permutation_u32 [Inhabited V] (cmp : Cmp V) (arr : List V) (right : Nat)
    (hlen : arr.length = right + 1) (h32 : 2 * right + 2 < 2 ^ 32) :
    ∃ r, heap_sort_helper32 cmp (right + 2) arr right = some r ∧
      List.Perm r.arr arr :=
  ⟨heap_sort_helper cmp arr right,
   heap_sort_helper32_eq cmp (right + 2) arr right h32 (Nat.le_refl _),
   heap_sort_perm cmp arr right hlen⟩

theorem c1_permutation_u32_witness :
    ∃ r, heap_sort_helper32 (fun k a b => if k = 2 then none else some (a - b))
        (4 + 2) ([3, 1, 4, 1, 5] : List Int) 4 = some r ∧
      List.Perm r.arr [3, 1, 4, 1, 5] :=
  c1_permutation_u32 (fun k a b => if k = 2 then none else some (a - b))
    [3, 1, 4, 1, 5] 4 (by decide) (by decide)

/-- Sortedness of the idealized (no-wrap) model under a never-failing
total-order comparator: the run reports no error and adjacent pairs of
the result compare `≤ 0`. -/
theorem heap_sort_sorted [Inhabited V] (f : V → V → Int) (hf : TotalCmp f)
    (arr : List V) (right : Nat) (hlen : arr.length = right + 1) :
    (heap_sort_helper (cmpOf f) arr right).err = false ∧
    ∀ j, j + 1 ≤ right →
      f ((heap_sort_helper (cmpOf f) arr right).arr.getD j default)
        ((heap_sort_helper (cmpOf f) arr right).arr.getD (j + 1) default) ≤ 0 := by
  rcases buildLoop_struct (cmpOf f) right (right / 2 + 1) arr 0 (Nat.le_refl _) (by omega)
    with ⟨hlen1, -, -⟩
  have hheap := buildLoop_heap f hf right (right / 2 + 1) arr 0 (Nat.le_refl _)
    (by omega) (heapFrom_top f arr right)
  unfold heap_sort_helper
  dsimp only
  rw [if_neg (by rw [buildLoop_cmpOf_err]; simp)]
  dsimp only
  constructor
  · exact sortLoop_cmpOf_err f right _ _
  · intro j hj
    exact sortLoop_sorted f hf right (buildLoop (cmpOf f) right arr 0 (right / 2 + 1)).arr
      (buildLoop (cmpOf f) right arr 0 (right / 2 + 1)).k (by omega) hheap
      (fun j2 h1 h2 => absurd h2 (by omega))
      (fun j2 h1 h2 => absurd h2 (by omega)) j (by omega)

/-- Claim C2 (amended with the no-overflow bound): for every array of
length `right + 1` with `right` small enough that `2 * right + 2` does
not overflow a 32-bit unsigned integer, and every never-failing
comparator whose numeric sign defines a total order, the faithful
`uint32_t` driver terminates, returns success (no error value), and
the resulting array satisfies `compare (a[j], a[j+1]) ≤ 0` for every
adjacent pair with `j + 1 ≤ right`.  Without the bound the property
fails on the real `uint32_t` arithmetic, which loops forever on such
an input: see `c2_counterexample`. -/
theorem c2_sorted_u32 [Inhabited V] (f : V → V → Int) (hf : TotalCmp f)
    (arr : List V) (right : Nat) (hlen : arr.length = right + 1)
    (h32 : 2 * right + 2 < 2 ^ 32) :
    ∃ r, heap_sort_helper32 (cmpOf f) (right + 2) arr right = some r ∧
      r.err = false ∧
      ∀ j, j + 1 ≤ right →
        f (r.arr.getD j default) (r.arr.getD (j + 1) default) ≤ 0 :=
  ⟨heap_sort_helper (cmpOf f) arr right,
   heap_sort_helper32_eq (cmpOf f) (right + 2) arr right h32 (Nat.le_refl _),
   (heap_sort_sorted f hf arr right hlen).1,
   (heap_sort_sorted f hf arr right hlen).2⟩

theorem c2_sorted_u32_witness :
    ∃ r, heap_sort_helper32 (cmpOf fun a b : Fin 4 => (a : Int) - (b : Int))
        (2 + 2) [3, 1, 2] 2 = some r ∧
      r.err = false ∧
      ∀ j, j + 1 ≤ 2 →
        (fun a b : Fin 4 => (a : Int) - (b : Int))
          (r.arr.getD j default) (r.arr.getD (j + 1) default) ≤ 0 :=
  c2_sorted_u32 (fun a b : Fin 4 => (a : Int) - (b : Int))
    ⟨by decide, by decide⟩ [3, 1, 2] 2 (by decide) (by decide)

/-- Root-maximality of phase 1 in the idealized (no-wrap) model. -/
theorem buildLoop_root_max [Inhabited V] (f : V → V → Int) (hf : TotalCmp f)
    (arr : List V) (right : Nat) (hlen : arr.length = right + 1) :
    (buildLoop (cmpOf f) right arr 0 (right / 2 + 1)).err = false ∧
    ∀ j, j ≤ right →
      0 ≤ f ((buildLoop (cmpOf f) right arr 0 (right / 2 + 1)).arr.getD 0 default)
        ((buildLoop (cmpOf f) right arr 0 (right / 2 + 1)).arr.getD j default) := by
  have hheap := buildLoop_heap f hf right (right / 2 + 1) arr 0 (Nat.le_refl _)
    (by omega) (heapFrom_top f arr right)
  refine ⟨buildLoop_cmpOf_err f right (right / 2 + 1) arr 0, ?_⟩
  intro j hj
  exact (hf.1 _ _).mp (heapFrom_root_max f hf _ right hheap j hj)

/-- Claim C8 (amended with the no-overflow bound): for every array of
length `right + 1` with `right` small enough that `2 * right + 2` does
not overflow a 32-bit unsigned integer, and every never-failing
comparator whose sign defines a total order, phase 1 of the faithful
`uint32_t` driver alone (the heap-construction loop, before any
extraction) terminates without error and leaves at index 0 an element
that compares greater than or equal (`compare (a[0], x) ≥ 0`) to every
other element at indices `1..right`.  Without the bound the property
fails on the real `uint32_t` arithmetic, whose phase 1 loops forever
on such an input: see `c8_counterexample`. -/
theorem c8_phase1_root_max_u32 [Inhabited V] (f : V → V → Int) (hf : TotalCmp f)
    (arr : List V) (right : Nat) (hlen : arr.length = right + 1)
    (h32 : 2 * right + 2 < 2 ^ 32) :
    ∃ r, buildLoop32 (cmpOf f) right (right + 2) arr 0 (right / 2 + 1) = some r ∧
      r.err = false ∧
      ∀ j, j ≤ right →
        0 ≤ f (r.arr.getD 0 default) (r.arr.getD j default) :=
  ⟨buildLoop (cmpOf f) right arr 0 (right / 2 + 1),
   buildLoop32_eq (cmpOf f) right (right + 2) h32 (Nat.le_refl _)
     (right / 2 + 1) arr 0 (by omega),
   (buildLoop_root_max f hf arr right hlen).1,
   (buildLoop_root_max f hf arr right hlen).2⟩

theorem c8_phase1_root_max_u32_witness :
    ∃ r, buildLoop32 (cmpOf fun a b : Fin 4 => (a : Int) - (b : Int)) 2
        (2 + 2) [1, 3, 2] 0 (2 / 2 + 1) = some r ∧
      r.err = false ∧
      ∀ j, j ≤ 2 →
        0 ≤ (fun a b : Fin 4 => (a : Int) - (b : Int))
          (r.arr.getD 0 default) (r.arr.getD j default) :=
  c8_phase1_root_max_u32 (fun a b : Fin 4 => (a : Int) - (b : Int))
    ⟨by decide, by decide⟩ [1, 3, 2] 2 (by decide) (by decide)

/-- Claim C9: for every single-element array (`right = 0`) and every
comparator, the driver makes zero comparator invocations, leaves every
slot holding exactly the value it held before the call, and returns
success. -/
theorem c9_single_element [Inhabited V] (cmp : Cmp V) (arr : List V)
    (hlen : arr.length = 1) :
    (heap_sort_helper cmp arr 0).arr = arr ∧
    (heap_sort_helper cmp arr 0).err = false ∧
    callsOf (heap_sort_helper cmp arr 0).tr = [] :=
  heap_sort_zero cmp arr

theorem c9_single_element_witness :
    (heap_sort_helper (fun (_ : Nat) (a b : Int) => some (a - b)) [7] 0).arr = [7] ∧
    (heap_sort_helper (fun (_ : Nat) (a b : Int) => some (a - b)) [7] 0).err = false ∧
    callsOf (heap_sort_helper (fun (_ : Nat) (a b : Int) => some (a - b)) [7] 0).tr = [] :=
  c9_single_element (fun (_ : Nat) (a b : Int) => some (a - b)) [7] (by decide)

/-- Claim C10: for every run of the driver on an array of length
`right + 1`, with `right` small enough that `2 * right + 2` does not
overflow a 32-bit unsigned integer, every executed `JERRY_ASSERT`
about index bounds (`child <= right`, `parent <= right`) evaluates to
true and every array write performed by the run uses an index in
`[0, right]`. -/
theorem c10_asserts_and_bounds [Inhabited V] (cmp : Cmp V) (arr : List V) (right : Nat)
    (hlen : arr.length = right + 1) (h32 : 2 * right + 2 < 2 ^ 32) :
    (heap_sort_helper cmp arr right).ok = true ∧
    ∀ e ∈ (heap_sort_helper cmp arr right).tr, EvBound right e :=
  heap_sort_ok cmp arr right

theorem c10_asserts_and_bounds_witness :
    (heap_sort_helper (fun (_ : Nat) (a b : Int) => some (a - b)) [2, 1] 1).ok = true ∧
    ∀ e ∈ (heap_sort_helper (fun (_ : Nat) (a b : Int) => some (a - b)) [2, 1] 1).tr,
      EvBound 1 e :=
  c10_asserts_and_bounds (fun (_ : Nat) (a b : Int) => some (a - b)) [2, 1] 1 (by decide)
    (by decide)

/-- Recognizer for the final write-back event (line 100). -/
def isWB : Ev V → Bool
  | Ev.writeBack _ => true
  | _ => false

theorem str_no_wb {k : Nat} {tr : List (Ev V)} (h : STr k tr) :
    tr.filter isWB = [] := by
  induction h with
  | nil k => rfl
  | fail k x y => rfl
  | stop k x y v => rfl
  | sel k x y v tr htr ih =>
      simp only [List.filter_cons]
      rw [ih]
      rfl
  | mov k x y v p c tr htr ih =>
      simp only [List.filter_cons]
      rw [ih]
      rfl

/-- Claim C3: for every call to `ecma_builtin_helper_array_to_heap`
with `index ≤ right`, on every exit path -- normal loop termination,
early break, or comparator failure -- the held-aside `swap` value is
written into `array[(child - 1) / 2]` (the parent of the final child
position) exactly once, as the very last action before the function
returns, so the held-aside value is never dropped, even on failure. -/
theorem c3_write_back [Inhabited V] (cmp : Cmp V) (arr : List V) (index right k : Nat)
    (hir : index ≤ right) (hlen : right < arr.length) :
    ∃ p, p ≤ right ∧
      (array_to_heap cmp arr index right k).tr.filter isWB = [Ev.writeBack p] ∧
      (array_to_heap cmp arr index right k).tr.getLast? = some (Ev.writeBack p) ∧
      (array_to_heap cmp arr index right k).arr.getD p default
        = arr.getD index default := by
  rcases siftLoop_struct cmp right (arr.getD index default) arr (index * 2 + 1) k
    (by omega) (by omega) with ⟨hlen1, hpb, -, -, -, -⟩
  have hnowb := str_no_wb (siftLoop_str cmp right (arr.getD index default) arr
    (index * 2 + 1) k)
  refine ⟨((siftLoop cmp right (arr.getD index default) arr (index * 2 + 1) k).child - 1)
    / 2, hpb, ?_, ?_, ?_⟩
  · unfold array_to_heap
    dsimp only
    rw [List.filter_append, hnowb, List.nil_append]
    rfl
  · unfold array_to_heap
    dsimp only
    rw [List.getLast?_concat]
  · unfold array_to_heap
    dsimp only
    rw [getD_set_self _ _ _ (by rw [hlen1]; omega)]

theorem c3_write_back_witness :
    ∃ p, p ≤ 2 ∧
      (array_to_heap (fun (_ : Nat) (a b : Int) => some (a - b))
        [3, 1, 2] 0 2 0).tr.filter isWB = [Ev.writeBack p] ∧
      (array_to_heap (fun (_ : Nat) (a b : Int) => some (a - b))
        [3, 1, 2] 0 2 0).tr.getLast? = some (Ev.writeBack p) ∧
      (array_to_heap (fun (_ : Nat) (a b : Int) => some (a - b))
        [3, 1, 2] 0 2 0).arr.getD p default
        = ([3, 1, 2] : List Int).getD 0 default :=
  c3_write_back (fun (_ : Nat) (a b : Int) => some (a - b)) [3, 1, 2] 0 2 0
    (by decide) (by decide)

/-- Claim C5: once some comparator invocation reports failure, no
further comparator invocation is ever made during that call to
`ecma_builtin_helper_array_heap_sort_helper` -- among the recorded
calls, only the last can be a failure -- and the driver returns the
error value exactly when some invocation failed. -/
theorem c5_first_failure_aborts [Inhabited V] (cmp : Cmp V) (arr : List V)
    (right : Nat) :
    ((heap_sort_helper cmp arr right).err = true ↔
      ∃ p ∈ callsOf (heap_sort_helper cmp arr right).tr, p.2 = none) ∧
    ∀ n, n + 1 < (callsOf (heap_sort_helper cmp arr right).tr).length →
      ((callsOf (heap_sort_helper cmp arr right).tr).getD n (0, none)).2 ≠ none := by
  rcases heap_sort_calls cmp arr right with ⟨h1, h2⟩
  exact ⟨h2, consec_fail_last _ 0 h1⟩

set_option maxRecDepth 8000 in
theorem c5_first_failure_aborts_witness :
    ((heap_sort_helper (fun k (a b : Int) => if k = 2 then none else some (a - b))
        [3, 1, 2] 2).err = true ↔
      ∃ p ∈ callsOf (heap_sort_helper
        (fun k (a b : Int) => if k = 2 then none else some (a - b)) [3, 1, 2] 2).tr,
        p.2 = none) ∧
    ((callsOf (heap_sort_helper
        (fun k (a b : Int) => if k = 2 then none else some (a - b))
        [3, 1, 2] 2).tr).getD 0 (0, none)).2 ≠ none :=
  ⟨(c5_first_failure_aborts (fun k (a b : Int) => if k = 2 then none else some (a - b))
      [3, 1, 2] 2).1,
   (c5_first_failure_aborts (fun k (a b : Int) => if k = 2 then none else some (a - b))
      [3, 1, 2] 2).2 0
    (by simp [heap_sort_helper, buildLoop, sortLoop, array_to_heap, siftLoop, sel,
      childSel, callsOf])⟩

theorem call_mem_callsOf {tr : List (Ev V)} {kk : Nat} {x y : V} {o : Option Int}
    (h : Ev.call kk x y o ∈ tr) : (kk, o) ∈ callsOf tr :=
  List.mem_filterMap.mpr ⟨Ev.call kk x y o, h, rfl⟩

/-- Claim C6: for every array, if the comparator fails on its very
first invocation (the run's call number 0 is recorded as failing),
the driver returns the error value and every array slot still holds
exactly the value it held before the call. -/
theorem c6_immediate_failure [Inhabited V] (cmp : Cmp V) (arr : List V) (right : Nat)
    (h : ∃ x y, Ev.call 0 x y none ∈ (heap_sort_helper cmp arr right).tr) :
    (heap_sort_helper cmp arr right).err = true ∧
    (heap_sort_helper cmp arr right).arr = arr := by
  obtain ⟨x, y, hmem⟩ := h
  have hcs : ((0 : Nat), (none : Option Int))
      ∈ callsOf (heap_sort_helper cmp arr right).tr := call_mem_callsOf hmem
  rcases heap_sort_calls cmp arr right with ⟨hcons, hiff⟩
  have hsingle := consec_zero_fail _ hcons hcs
  have herr2 : (heap_sort_helper cmp arr right).err = true :=
    hiff.mpr ⟨(0, none), hcs, rfl⟩
  refine ⟨herr2, ?_⟩
  cases Nat.eq_zero_or_pos right with
  | inl h0 =>
      subst h0
      rcases heap_sort_zero cmp arr with ⟨-, -, hnil⟩
      rw [hnil] at hcs
      exact absurd hcs (by simp)
  | inr hpos =>
      revert hsingle herr2
      unfold heap_sort_helper
      dsimp only
      by_cases herr1 : (buildLoop cmp right arr 0 (right / 2 + 1)).err = true
      · rw [if_pos herr1]
        intro hsingle herr2
        exact (buildLoop_single_fail cmp right (right / 2 + 1) arr 0 0 hsingle).1
      · rw [if_neg herr1]
        dsimp only
        intro hsingle herr2
        exfalso
        rw [callsOf_append] at hsingle
        rcases append_eq_single hsingle with ⟨h1, h2⟩ | ⟨h1, h2⟩
        · have : right / 2 + 1 = right / 2 + 1 := rfl
          exact buildLoop_calls_ne_nil cmp right hpos (right / 2) arr 0 h1
        · exact herr1 (buildLoop_single_fail cmp right (right / 2 + 1) arr 0 0 h1).2

set_option maxRecDepth 8000 in
theorem c6_immediate_failure_witness :
    (heap_sort_helper (fun (_ : Nat) (_ _ : Int) => none) [5, 4] 1).err = true ∧
    (heap_sort_helper (fun (_ : Nat) (_ _ : Int) => none) [5, 4] 1).arr = [5, 4] :=
  c6_immediate_failure (fun (_ : Nat) (_ _ : Int) => none) [5, 4] 1
    (by
      refine ⟨4, 5, ?_⟩
      simp [heap_sort_helper, buildLoop, sortLoop, array_to_heap, siftLoop, sel,
        childSel])

/-- Claim C7: every numeric comparison outcome returned by a successful
comparator invocation inside `ecma_builtin_helper_array_to_heap` is
released (`ecma_free_value`) exactly once, after its sign has been
consulted and before either the next comparator invocation or the
function's return; no numeric outcome is released twice or leaked on
any path, including the early-break and failure paths. -/
theorem c7_release_once [Inhabited V] [DecidableEq V] (cmp : Cmp V) (arr : List V)
    (index right k0 : Nat) :
    ∀ (i kk : Nat) (x y : V) (v : Int),
      (array_to_heap cmp arr index right k0).tr[i]?
        = some (Ev.call kk x y (some v)) →
      (array_to_heap cmp arr index right k0).tr.count (Ev.free kk) = 1 ∧
      ∃ j, i < j ∧
        (array_to_heap cmp arr index right k0).tr[j]? = some (Ev.free kk) ∧
        ∀ (m : Nat), i < m → m < j → ∀ (k2 : Nat) (x2 y2 : V) (o2 : Option Int),
          (array_to_heap cmp arr index right k0).tr[m]?
            ≠ some (Ev.call k2 x2 y2 o2) := by
  have hstr := siftLoop_str cmp right (arr.getD index default) arr (index * 2 + 1) k0
  intro i kk x y v hi
  have htr : (array_to_heap cmp arr index right k0).tr
      = (siftLoop cmp right (arr.getD index default) arr (index * 2 + 1) k0).tr
        ++ [Ev.writeBack
          (((siftLoop cmp right (arr.getD index default) arr (index * 2 + 1) k0).child
            - 1) / 2)] := rfl
  rw [htr] at hi ⊢
  have hilt : i < (siftLoop cmp right (arr.getD index default) arr
      (index * 2 + 1) k0).tr.length := by
    by_contra hge
    rw [List.getElem?_append_right (by omega)] at hi
    rcases h0 : i - (siftLoop cmp right (arr.getD index default) arr
        (index * 2 + 1) k0).tr.length with _ | n <;> rw [h0] at hi <;> simp at hi
  rw [List.getElem?_append_left hilt] at hi
  rcases str_release hstr i kk x y v hi with ⟨hcount, j, hj1, hj2, hbet⟩
  have hjlt : j < (siftLoop cmp right (arr.getD index default) arr
      (index * 2 + 1) k0).tr.length :=
    (List.getElem?_eq_some_iff.mp hj2).1
  refine ⟨?_, j, hj1, ?_, ?_⟩
  · rw [List.count_append, hcount]
    rfl
  · rw [List.getElem?_append_left hjlt]
    exact hj2
  · intro m hm1 hm2 k2 x2 y2 o2
    rw [List.getElem?_append_left (by omega)]
    exact hbet m hm1 hm2 k2 x2 y2 o2

set_option maxRecDepth 8000 in
theorem c7_release_once_witness :
    (array_to_heap (fun (_ : Nat) (a b : Int) => some (a - b)) [2, 1] 0 1 0).tr.count
      (Ev.free 0) = 1 ∧
    ∃ j, 0 < j ∧
      (array_to_heap (fun (_ : Nat) (a b : Int) => some (a - b))
        [2, 1] 0 1 0).tr[j]? = some (Ev.free 0) ∧
      ∀ (m : Nat), 0 < m → m < j → ∀ (k2 : Nat) (x2 y2 : Int) (o2 : Option Int),
        (array_to_heap (fun (_ : Nat) (a b : Int) => some (a - b))
          [2, 1] 0 1 0).tr[m]? ≠ some (Ev.call k2 x2 y2 o2) :=
  c7_release_once (fun (_ : Nat) (a b : Int) => some (a - b)) [2, 1] 0 1 0 0 0
    (1 : Int) (2 : Int) (-1)
    (by simp [array_to_heap, siftLoop, sel, childSel])

/-- Claim C4 counterexample: the claim says that whenever a right
sibling exists and the sibling comparison succeeds with sign ≤ 0, the
loop advances to the right sibling before the comparison against
`swap`.  With array `[10, 0, 5]`, `child = 1 < right = 2` and a
comparator returning sign 0 for the sibling comparison, the next
comparison's first operand is `array[1] = 0`, not
`array[2] = 5`: the loop did not advance. -/
theorem c4_counterexample :
    (fun k (a b : Int) => if k = 0 then some (0 : Int) else some (a - b)) 0
        (([10, 0, 5] : List Int).getD 1 default)
        (([10, 0, 5] : List Int).getD 2 default) = some 0 ∧
    (0 : Int) ≤ 0 ∧
    ¬ ∃ o : Option Int,
      (siftLoop (fun k (a b : Int) => if k = 0 then some (0 : Int) else some (a - b))
          2 10 [10, 0, 5] 1 0).tr[2]?
        = some (Ev.call 1 (([10, 0, 5] : List Int).getD 2 default) 10 o) := by
  refine ⟨rfl, by omega, ?_⟩
  rintro ⟨o, ho⟩
  rw [show (siftLoop (fun k (a b : Int) =>
      if k = 0 then some (0 : Int) else some (a - b)) 2 10 [10, 0, 5] 1 0).tr
      = [Ev.call 0 (0 : Int) 5 (some 0), Ev.free 0,
         Ev.call 1 (0 : Int) 10 (some (-10)), Ev.free 1]
    from by simp [siftLoop, sel, childSel]] at ho
  simp at ho

/-- Claim C4 (amended): in every iteration of the sift-down loop in
which a right sibling exists (`child < right`) and the comparator
invocation on `(array[child], array[child+1])` succeeds with sign `x`,
the loop advances `child` to the right sibling exactly when `x < 0`
(strictly negative; a zero sign keeps the left child), and the
subsequent comparison against the held-aside `swap` value uses that
selected child as its first operand. -/
theorem c4_advance_iff_neg [Inhabited V] (cmp : Cmp V) (right : Nat) (swap : V)
    (arr : List V) (child k : Nat) (x : Int)
    (hlt : child < right)
    (hx : cmp k (arr.getD child default) (arr.getD (child + 1) default) = some x) :
    ∃ o : Option Int,
      (siftLoop cmp right swap arr child k).tr[2]?
        = some (Ev.call (k + 1)
            (arr.getD (if x < 0 then child + 1 else child) default) swap o) := by
  have hsel : sel cmp k arr child right
      = some (if x < 0 then child + 1 else child, k + 1,
          [Ev.call k (arr.getD child default) (arr.getD (child + 1) default) (some x),
           Ev.free k]) := by
    unfold sel childSel
    rw [if_pos hlt, hx]
  cases hm : cmp (k + 1) (arr.getD (if x < 0 then child + 1 else child) default) swap
    with
  | none =>
      rw [siftLoop_cmpErr cmp right swap arr child k (by omega) hsel hm]
      exact ⟨none, rfl⟩
  | some y =>
      by_cases hy : y ≤ 0
      · rw [siftLoop_stop cmp right swap arr child k (by omega) hsel hm hy]
        exact ⟨some y, rfl⟩
      · rw [siftLoop_step cmp right swap arr child k (by omega) hsel hm hy]
        exact ⟨some y, rfl⟩

theorem c4_advance_iff_neg_witness :
    ∃ o : Option Int,
      (siftLoop (fun (_ : Nat) (a b : Int) => some (a - b)) 2 10
        [10, 0, 5] 1 0).tr[2]?
        = some (Ev.call 1
            (([10, 0, 5] : List Int).getD
              (if ((0 : Int) - 5) < 0 then 1 + 1 else 1) default) 10 o) :=
  c4_advance_iff_neg (fun (_ : Nat) (a b : Int) => some (a - b)) 2 10
    [10, 0, 5] 1 0 ((0 : Int) - 5) (by decide) rfl

end HeapSort
